import Mathlib

set_option maxRecDepth 4096

/-!
Verification development for the assistant-chat bridge and citation
rendering logic of this repository.

Strings are modelled as `List Char` (JavaScript string = sequence of
characters; the code only uses length, slice, concatenation and
character tests, all position-based).  Each definition embeds the
function of the source file named in its doc comment.
-/

/-! ### Decimal digit strings

Models JavaScript number-to-string interpolation for natural numbers
(template literals such as the marker text built at part_000 line 255). -/

/-- Character for a single decimal digit (`d < 10`). -/
def digitChar (d : Nat) : Char := Char.ofNat (48 + d)

/-- Little-endian digit list of `n`, driven by fuel (fuel `n` suffices). -/
def natDigitsRev : Nat → Nat → List Char
  | 0, _ => []
  | fuel + 1, n => if n = 0 then [] else digitChar (n % 10) :: natDigitsRev fuel (n / 10)

/-- Decimal digit string of `n`, exactly as produced by JavaScript
number-to-string conversion for a natural number. -/
def natDigits (n : Nat) : List Char := if n = 0 then ['0'] else (natDigitsRev n n).reverse

/-- Numeric value of a digit character. -/
def digitVal (c : Char) : Nat := c.toNat - 48

/-- Value of a little-endian digit list. -/
def digitsValRev : List Char → Nat
  | [] => 0
  | c :: cs => digitVal c + 10 * digitsValRev cs

/-- Decoder for `natDigits` (big-endian digit list to value). -/
def decodeNat (ds : List Char) : Nat := digitsValRev ds.reverse

theorem digitsValRev_natDigitsRev : ∀ (fuel n : Nat), n ≤ fuel →
    digitsValRev (natDigitsRev fuel n) = n := by
  intro fuel
  induction fuel with
  | zero =>
    intro n h
    have h0 : n = 0 := by omega
    subst h0
    simp [natDigitsRev, digitsValRev]
  | succ f ih =>
    intro n h
    by_cases h0 : n = 0
    · simp [natDigitsRev, h0, digitsValRev]
    · have hdiv : n / 10 ≤ f := by omega
      simp only [natDigitsRev, h0, if_false, digitsValRev, ih (n / 10) hdiv]
      have hdv : digitVal (digitChar (n % 10)) = n % 10 := by
        have hlt : n % 10 < 10 := Nat.mod_lt _ (by omega)
        interval_cases h : n % 10 <;> decide
      rw [hdv]
      omega

theorem decodeNat_natDigits (n : Nat) : decodeNat (natDigits n) = n := by
  by_cases h0 : n = 0
  · simp [natDigits, h0, decodeNat, digitsValRev, digitVal, digitChar]
  · simp only [natDigits, h0, if_false, decodeNat, List.reverse_reverse]
    exact digitsValRev_natDigitsRev n n le_rfl

theorem natDigits_injective : Function.Injective natDigits := by
  intro m n h
  have := congrArg decodeNat h
  rwa [decodeNat_natDigits, decodeNat_natDigits] at this

theorem natDigits_ne_nil (n : Nat) : natDigits n ≠ [] := by
  by_cases h0 : n = 0
  · simp [natDigits, h0]
  · simp only [natDigits, h0, if_false, ne_eq, List.reverse_eq_nil_iff]
    cases n with
    | zero => omega
    | succ m => simp [natDigitsRev]

theorem isDigit_digitChar (d : Nat) (h : d < 10) : (digitChar d).isDigit = true := by
  interval_cases d <;> decide

theorem natDigitsRev_digits : ∀ (fuel n : Nat), ∀ c ∈ natDigitsRev fuel n, c.isDigit = true := by
  intro fuel
  induction fuel with
  | zero => intro n c hc; simp [natDigitsRev] at hc
  | succ f ih =>
    intro n c hc
    by_cases h0 : n = 0
    · simp [natDigitsRev, h0] at hc
    · simp only [natDigitsRev, h0, if_false, List.mem_cons] at hc
      rcases hc with hc | hc
      · subst hc; exact isDigit_digitChar _ (Nat.mod_lt _ (by omega))
      · exact ih _ _ hc

theorem natDigits_digits (n : Nat) : ∀ c ∈ natDigits n, c.isDigit = true := by
  intro c hc
  by_cases h0 : n = 0
  · simp [natDigits, h0] at hc; subst hc; decide
  · simp only [natDigits, h0, if_false, List.mem_reverse] at hc
    exact natDigitsRev_digits n n c hc

/-! ### Data model: citations

A citation record (`lib/types` `AssistantChatMessageCitation`): a character
offset into the final content plus a list of supporting references.  The
reference payload is never inspected by the algorithms below, only carried,
so it is modelled as an opaque identifier list. -/

structure Citation where
  position : Int
  references : List Nat
deriving DecidableEq, Repr

/-- Comparator used by both `.sort` calls (part_000 lines 242 and 279):
ascending by `position`. -/
def posLE (a b : Citation) : Prop := a.position ≤ b.position

instance : DecidableRel posLE := fun a b => Int.decLe a.position b.position

instance : IsTotal Citation posLE := ⟨fun a b => Int.le_total a.position b.position⟩

instance : IsTrans Citation posLE := ⟨fun _ _ _ hab hbc => Int.le_trans hab hbc⟩

/-- The filter predicate of part_000 lines 241 and 278:
`citation.position >= 0 && citation.position <= content.length`. -/
def citationValid (content : List Char) (c : Citation) : Bool :=
  decide (0 ≤ c.position) && decide (c.position ≤ (content.length : Int))

/-- Filter-and-stable-sort pass of `insertCitationMarkers`
(part_000 lines 240-242).  JavaScript `Array.prototype.sort` is stable,
so it is embedded as insertion sort with the same comparator. -/
def insertValidCitations (content : List Char) (citations : List Citation) : List Citation :=
  List.insertionSort posLE (citations.filter (citationValid content))

/-- Filter-and-stable-sort pass of the `citationMap` memo
(part_000 lines 277-279). -/
def mapValidCitations (content : List Char) (citations : List Citation) : List Citation :=
  List.insertionSort posLE (citations.filter (citationValid content))

/-- Nat position of a citation (used once nonnegativity is known). -/
def posNat (c : Citation) : Nat := c.position.toNat

/-! ### Marker insertion (part_000 lines 231-260) -/

/-- The fixed marker head `[CITATION_`. -/
def markerHead : List Char := "[CITATION_".data

/-- The literal token `[CITATION_<i>]` spliced at part_000 line 255. -/
def markerChars (i : Nat) : List Char := markerHead ++ natDigits i ++ [']']

/-- The descending splice loop of part_000 lines 252-257: index `idx`
is the marker number of the head; the tail (higher indices, later
positions) is spliced first, so splices happen in descending position
order exactly as in the source loop. -/
def insertMarkersFrom (idx : Nat) : List Citation → List Char → List Char
  | [], res => res
  | c :: cs, res =>
    let res2 := insertMarkersFrom (idx + 1) cs res
    res2.take (posNat c) ++ markerChars idx ++ res2.drop (posNat c)

/-- `insertCitationMarkers` (part_000 lines 231-260). -/
def insertCitationMarkers (content : List Char) (citations : List Citation) : List Char :=
  if citations.isEmpty then content
  else
    let valid := insertValidCitations content citations
    if valid.isEmpty then content
    else insertMarkersFrom 0 valid content

/-! ### Citation map (part_000 lines 273-284) -/

/-- The fixed key head `CITATION_`. -/
def keyHead : List Char := "CITATION_".data

/-- Key stored for marker index `i`. -/
def citationKey (i : Nat) : List Char := keyHead ++ natDigits i

/-- The `citationMap` memo (part_000 lines 273-284): an association list
from the key `CITATION_<idx>` to the 1-based display number and the
citation record.  Keys are pairwise distinct, so association-list lookup
coincides with JS `Map` lookup. -/
def citationMap (content : List Char) (citations : List Citation) :
    List (List Char × (Nat × Citation)) :=
  if citations.isEmpty then []
  else
    (mapValidCitations content citations).enum.map
      (fun p => (citationKey p.1, (p.1 + 1, p.2)))

/-- `Map.get` on the association list. -/
def mapLookup (m : List (List Char × (Nat × Citation))) (k : List Char) :
    Option (Nat × Citation) :=
  match m.find? (fun e => decide (e.1 = k)) with
  | some e => some e.2
  | none => none

/-! ### Stability of the sorting pass -/

theorem filter_orderedInsert (p : Int) (a : Citation) (l : List Citation) :
    (List.orderedInsert posLE a l).filter (fun c => decide (c.position = p)) =
      if a.position = p then a :: l.filter (fun c => decide (c.position = p))
      else l.filter (fun c => decide (c.position = p)) := by
  rw [List.orderedInsert_eq_take_drop]
  rw [List.filter_append]
  by_cases hq : a.position = p
  · have htw : (l.takeWhile fun b => decide ¬posLE a b).filter
        (fun c => decide (c.position = p)) = [] := by
      rw [List.filter_eq_nil_iff]
      intro b hb
      have := List.mem_takeWhile_imp hb
      simp only [decide_eq_true_eq, posLE] at this
      simp only [decide_eq_true_eq]
      omega
    rw [htw]
    simp only [hq, if_true, List.nil_append, List.filter_cons, hq, decide_True]
    congr 1
    conv_rhs => rw [← List.takeWhile_append_dropWhile (p := fun b => decide ¬posLE a b) (l := l)]
    rw [List.filter_append, htw, List.nil_append]
  · simp only [hq, if_false, List.filter_cons]
    simp only [decide_eq_true_eq, hq, if_false]
    conv_rhs => rw [← List.takeWhile_append_dropWhile (p := fun b => decide ¬posLE a b) (l := l)]
    rw [List.filter_append]

theorem filter_insertionSort (p : Int) (l : List Citation) :
    (List.insertionSort posLE l).filter (fun c => decide (c.position = p)) =
      l.filter (fun c => decide (c.position = p)) := by
  induction l with
  | nil => rfl
  | cons a l ih =>
    simp only [List.insertionSort]
    rw [filter_orderedInsert, List.filter_cons]
    by_cases hq : a.position = p
    · simp [hq, ih]
    · simp [hq, ih]

/-! ### Key lookup agreement between the two passes -/

theorem citationKey_injective : Function.Injective citationKey := by
  intro i j h
  exact natDigits_injective (List.append_cancel_left h)

theorem citationEntries_lookup :
    ∀ (l : List Citation) (k i : Nat) (c : Citation),
      l.get? i = some c →
      ((l.enumFrom k).map (fun p => (citationKey p.1, (p.1 + 1, p.2)))).find?
          (fun e => decide (e.1 = citationKey (k + i))) =
        some (citationKey (k + i), (k + i + 1, c)) := by
  intro l
  induction l with
  | nil => intro k i c h; simp at h
  | cons a t ih =>
    intro k i c h
    cases i with
    | zero =>
      simp only [List.get?] at h
      injection h with h
      subst h
      simp [List.enumFrom, List.find?]
    | succ i =>
      simp only [List.get?] at h
      have hne : citationKey k ≠ citationKey (k + (i + 1)) := by
        intro hk
        have := citationKey_injective hk
        omega
      have step := ih (k + 1) i c h
      simp only [List.enumFrom, List.map_cons, List.find?]
      rw [decide_eq_false hne]
      have harith : k + 1 + i = k + (i + 1) := by omega
      rw [harith] at step
      exact step

/-! ### Concrete example citations used by the spec's test properties -/

def exContent5 : List Char := "hello".data

def ex5a : Citation := ⟨5, [10]⟩

def ex2 : Citation := ⟨2, [11]⟩

def ex5b : Citation := ⟨5, [12]⟩

def exContentHi : List Char := "hi".data

def exP0 : Citation := ⟨0, [20]⟩

def exP2 : Citation := ⟨2, [21]⟩

def exP3 : Citation := ⟨3, [22]⟩

/-- C2: the Citation Indexer discards exactly the citations whose position is
negative or beyond the content length (survivors form a permutation of the
filtered input, kept with multiplicity), sorts the survivors ascending by
position, stably (for every position value, the survivors at that position
appear in their original relative order), and assigns marker indices
0, 1, 2, … in sorted order; on `[{position:5},{position:2},{position:5}]`
(over content of length 5) the indexed result is
`[(0,{position:2}), (1,{position:5}), (2,{position:5})]` with the two
position-5 citations in original order, and over content `"hi"` with
positions `[0, 2, 3]` only positions 0 and 2 survive. -/
theorem c2_citation_indexer :
    (∀ content cs, (insertValidCitations content cs).Perm
        (cs.filter (citationValid content))) ∧
    (∀ content cs, List.Sorted posLE (insertValidCitations content cs)) ∧
    (∀ content cs p,
        (insertValidCitations content cs).filter (fun c => decide (c.position = p)) =
          (cs.filter (citationValid content)).filter (fun c => decide (c.position = p))) ∧
    (∀ content cs, (insertValidCitations content cs).enum.map Prod.fst =
        List.range (insertValidCitations content cs).length) ∧
    (insertValidCitations exContent5 [ex5a, ex2, ex5b]).enum =
        [(0, ex2), (1, ex5a), (2, ex5b)] ∧
    insertValidCitations exContentHi [exP0, exP2, exP3] = [exP0, exP2] := by
  refine ⟨?_, ?_, ?_, ?_, ?_, ?_⟩
  · intro content cs
    exact List.perm_insertionSort posLE _
  · intro content cs
    exact List.sorted_insertionSort posLE _
  · intro content cs p
    exact filter_insertionSort p _
  · intro content cs
    exact List.enum_map_fst _
  · decide
  · decide

/-- C4: the marker-index-to-citation assignment of the insertion pass equals
the one of the resolution pass: the two filter-and-sort computations are
identical, and for every index `i`, looking up the key `CITATION_<i>` in the
resolution map returns display number `i + 1` together with exactly the
citation that the insertion pass wrote as `[CITATION_<i>]` (the `i`-th
element of the filtered-and-sorted list). -/
theorem citationMap_lookup (content : List Char) (cs : List Citation) (i : Nat) (c : Citation)
    (h : (insertValidCitations content cs).get? i = some c) :
    mapLookup (citationMap content cs) (citationKey i) = some (i + 1, c) := by
  by_cases hcs : cs.isEmpty
  · rw [List.isEmpty_iff] at hcs
    subst hcs
    simp [insertValidCitations, List.insertionSort] at h
  · have hmv : mapValidCitations content cs = insertValidCitations content cs := rfl
    have step := citationEntries_lookup (insertValidCitations content cs) 0 i c h
    simp only [Nat.zero_add] at step
    simp only [citationMap, hcs, Bool.false_eq_true, if_false, hmv, List.enum, mapLookup]
    rw [step]

theorem c4_passes_agree :
    (∀ content cs, insertValidCitations content cs = mapValidCitations content cs) ∧
    (∀ content cs i c, (insertValidCitations content cs).get? i = some c →
        mapLookup (citationMap content cs) (citationKey i) = some (i + 1, c)) := by
  constructor
  · intro content cs
    rfl
  · exact fun content cs i c h => citationMap_lookup content cs i c h

/-- Witness for C4 at a concrete input: the citation written as
`[CITATION_1]` (the first position-5 citation) resolves through the map to
display number 2 and that same citation. -/
theorem c4_passes_agree_witness :
    mapLookup (citationMap exContent5 [ex5a, ex2, ex5b]) (citationKey 1) =
      some (2, ex5a) :=
  c4_passes_agree.2 exContent5 [ex5a, ex2, ex5b] 1 ex5a (by decide)

/-! ### Marker scanning (part_000 lines 291-328)

The resolver scans text nodes with the pattern `bracket CITATION_ digits
bracket` (the regex at line 294).  Greedy digit matching followed by the
mandatory closing bracket is equivalent to taking the maximal digit run and
requiring the next character to be the closing bracket. -/

/-- Attempt to match the marker pattern at the head of `s`; on success
returns the digit group and the remainder after the closing bracket. -/
def parseMarkerAt (s : List Char) : Option (List Char × List Char) :=
  if s.take 10 = markerHead then
    if (s.drop 10).takeWhile Char.isDigit = [] then none
    else
      match (s.drop 10).dropWhile Char.isDigit with
      | c :: rest => if c = ']' then some ((s.drop 10).takeWhile Char.isDigit, rest) else none
      | [] => none
  else none

/-- Leftmost marker match in `s`: `(text before, digit group, text after)`.
Models successive `regex.exec` scanning. -/
def findMarker : List Char → Option (List Char × List Char × List Char)
  | [] => none
  | c :: cs =>
    match parseMarkerAt (c :: cs) with
    | some (ds, rest) => some ([], ds, rest)
    | none =>
      match findMarker cs with
      | some (pre, ds, rest) => some (c :: pre, ds, rest)
      | none => none

theorem takeWhile_append_all (p : Char → Bool) :
    ∀ (ds : List Char) (x : Char) (t : List Char), (∀ c ∈ ds, p c = true) → p x = false →
      (ds ++ x :: t).takeWhile p = ds := by
  intro ds
  induction ds with
  | nil => intro x t _ hx; simp [List.takeWhile, hx]
  | cons d ds ih =>
    intro x t h hx
    have hd : p d = true := h d (by simp)
    have ihx := ih x t (fun c hc => h c (by simp [hc])) hx
    rw [List.cons_append, List.takeWhile_cons, hd]
    simp only [if_true]
    exact congrArg (d :: ·) ihx

theorem dropWhile_append_all (p : Char → Bool) :
    ∀ (ds : List Char) (x : Char) (t : List Char), (∀ c ∈ ds, p c = true) → p x = false →
      (ds ++ x :: t).dropWhile p = x :: t := by
  intro ds
  induction ds with
  | nil => intro x t _ hx; simp [List.dropWhile, hx]
  | cons d ds ih =>
    intro x t h hx
    have hd : p d = true := h d (by simp)
    have ihx := ih x t (fun c hc => h c (by simp [hc])) hx
    rw [List.cons_append, List.dropWhile_cons, hd]
    simp only [if_true]
    exact ihx

/-- The marker pattern at the head of a string always parses back. -/
theorem parseMarkerAt_marker (ds rest : List Char) (hne : ds ≠ [])
    (hdig : ∀ c ∈ ds, c.isDigit = true) :
    parseMarkerAt (markerHead ++ ds ++ ']' :: rest) = some (ds, rest) := by
  have hlen : markerHead.length = 10 := by decide
  have htake : (markerHead ++ (ds ++ ']' :: rest)).take 10 = markerHead := by
    rw [← hlen]
    exact List.take_left markerHead _
  have hdrop : (markerHead ++ (ds ++ ']' :: rest)).drop 10 = ds ++ ']' :: rest := by
    rw [← hlen]
    exact List.drop_left markerHead _
  have hclose : Char.isDigit ']' = false := by decide
  have htw : (ds ++ ']' :: rest).takeWhile Char.isDigit = ds :=
    takeWhile_append_all _ ds ']' rest hdig hclose
  have hdw : (ds ++ ']' :: rest).dropWhile Char.isDigit = ']' :: rest :=
    dropWhile_append_all _ ds ']' rest hdig hclose
  simp only [parseMarkerAt, List.append_assoc, htake, hdrop, htw, hdw, if_pos rfl, hne,
    if_false, if_true]

/-- Successful parses decompose the input as the literal pattern. -/
theorem parseMarkerAt_some (s ds rest : List Char) (h : parseMarkerAt s = some (ds, rest)) :
    s = markerHead ++ ds ++ ']' :: rest ∧ ds ≠ [] ∧ ∀ c ∈ ds, c.isDigit = true := by
  by_cases h1 : s.take 10 = markerHead
  · by_cases h2 : (s.drop 10).takeWhile Char.isDigit = []
    · simp [parseMarkerAt, h1, h2] at h
    · cases hd : (s.drop 10).dropWhile Char.isDigit with
      | nil => simp [parseMarkerAt, h1, h2, hd] at h
      | cons c rest2 =>
        by_cases hc : c = ']'
        · simp only [parseMarkerAt, h1, if_pos rfl, h2, if_false, hd, hc, if_true] at h
          injection h with h
          injection h with hds hrest
          subst hds
          subst hrest
          subst hc
          refine ⟨?_, h2, fun x hx => List.mem_takeWhile_imp hx⟩
          calc s = s.take 10 ++ s.drop 10 := (List.take_append_drop 10 s).symm
            _ = markerHead ++
                ((s.drop 10).takeWhile Char.isDigit ++ (s.drop 10).dropWhile Char.isDigit) := by
                rw [h1]
                exact congrArg (markerHead ++ ·)
                  (List.takeWhile_append_dropWhile (p := Char.isDigit) (l := s.drop 10)).symm
            _ = markerHead ++ ((s.drop 10).takeWhile Char.isDigit ++ (']' :: rest2)) := by
                rw [hd]
            _ = markerHead ++ (s.drop 10).takeWhile Char.isDigit ++ ']' :: rest2 := by
                rw [List.append_assoc]
        · simp [parseMarkerAt, h1, h2, hd, hc] at h
  · simp [parseMarkerAt, h1] at h

theorem parseMarkerAt_nil : parseMarkerAt [] = none := by decide

/-- If the pattern parses at the head, the leftmost match is at the head. -/
theorem findMarker_of_parse (s ds rest : List Char) (h : parseMarkerAt s = some (ds, rest)) :
    findMarker s = some ([], ds, rest) := by
  cases s with
  | nil => rw [parseMarkerAt_nil] at h; cases h
  | cons c cs => simp [findMarker, h]

theorem findMarker_cons_none (c : Char) (cs : List Char) (h : findMarker (c :: cs) = none) :
    parseMarkerAt (c :: cs) = none ∧ findMarker cs = none := by
  cases hp : parseMarkerAt (c :: cs) with
  | some p => simp [findMarker, hp] at h
  | none =>
    refine ⟨rfl, ?_⟩
    cases hf : findMarker cs with
    | some p => obtain ⟨pre, ds, rest⟩ := p; simp [findMarker, hp, hf] at h
    | none => rfl

theorem markerHead_eq : markerHead = '[' :: keyHead := by decide

theorem findMarker_cons_of_none (c : Char) (cs : List Char)
    (h : parseMarkerAt (c :: cs) = none) :
    findMarker (c :: cs) =
      match findMarker cs with
      | some (pre, ds, rest) => some (c :: pre, ds, rest)
      | none => none := by
  simp only [findMarker, h]

theorem not_bracket_of_digit (c : Char) (h : c.isDigit = true) : c ≠ '[' := by
  intro hc
  subst hc
  simp at h

/-- No marker match can start strictly inside a prefix `u` and bridge into
a following marker token: the pattern contains its opening bracket only at
position 0, while the following token starts with one. -/
theorem parseMarkerAt_append_marker_none (u ds t : List Char) (hu : u ≠ [])
    (hpu : parseMarkerAt u = none) (hne : ds ≠ []) (hdig : ∀ c ∈ ds, c.isDigit = true) :
    parseMarkerAt (u ++ markerHead ++ ds ++ ']' :: t) = none := by
  cases hp : parseMarkerAt (u ++ markerHead ++ ds ++ ']' :: t) with
  | none => rfl
  | some p =>
    exfalso
    obtain ⟨ds2, r2⟩ := p
    obtain ⟨heq, hne2, hdig2⟩ := parseMarkerAt_some _ _ _ hp
    have heq2 : u ++ (markerHead ++ ds ++ ']' :: t) =
        (markerHead ++ ds2 ++ [']']) ++ r2 := by
      simp only [List.append_assoc, List.cons_append, List.singleton_append] at heq ⊢
      exact heq
    by_cases hlen : (markerHead ++ ds2 ++ [']']).length ≤ u.length
    · -- the whole matched pattern sits inside `u`, so `u` itself parses
      have hpre1 : (markerHead ++ ds2 ++ [']']) <+: u ++ (markerHead ++ ds ++ ']' :: t) :=
        ⟨r2, heq2.symm⟩
      have hpre2 : u <+: u ++ (markerHead ++ ds ++ ']' :: t) := ⟨_, rfl⟩
      have hpre3 : (markerHead ++ ds2 ++ [']']) <+: u :=
        List.prefix_of_prefix_length_le hpre1 hpre2 hlen
      obtain ⟨u2, hu2⟩ := hpre3
      have : parseMarkerAt u = some (ds2, u2) := by
        have hshape : u = markerHead ++ ds2 ++ ']' :: u2 := by
          rw [← hu2]; simp
        rw [hshape]
        exact parseMarkerAt_marker ds2 u2 hne2 hdig2
      rw [hpu] at this
      cases this
    · -- the opening bracket of the token would have to occur inside the
      -- pattern at a positive position, which is impossible
      push_neg at hlen
      have hulen : 1 ≤ u.length := by
        cases u with
        | nil => exact absurd rfl hu
        | cons a b => simp
      have hchar : (u ++ (markerHead ++ ds ++ ']' :: t)).get? u.length = some '[' := by
        rw [List.get?_append_right (le_refl u.length)]
        simp [markerHead_eq]
      rw [heq2] at hchar
      rw [List.get?_append hlen] at hchar
      have hmem : '[' ∈ markerHead ++ ds2 ++ [']'] := List.get?_mem hchar
      have hmem2 : '[' ∈ ('[' :: keyHead) ++ ds2 ++ [']'] := by
        rw [← markerHead_eq]; exact hmem
      -- the bracket cannot be at position 0 since u.length ≥ 1
      have hchar2 : (('[' :: keyHead) ++ ds2 ++ [']']).get? u.length = some '[' := by
        rw [← markerHead_eq]; exact hchar
      obtain ⟨m, hm⟩ : ∃ m, u.length = m + 1 := ⟨u.length - 1, by omega⟩
      rw [hm] at hchar2
      have hchar3 : (keyHead ++ ds2 ++ [']']).get? m = some '[' := by
        simpa using hchar2
      have hmem3 : '[' ∈ keyHead ++ ds2 ++ [']'] := List.get?_mem hchar3
      simp only [List.mem_append] at hmem3
      rcases hmem3 with (h3 | h3) | h3
      · revert h3; decide
      · exact not_bracket_of_digit '[' (hdig2 '[' h3) rfl
      · revert h3; decide

/-- Scanning a string made of a marker-free segment followed by a marker
token finds exactly that token, with the segment as the preceding text. -/
theorem findMarker_append_marker (seg ds t : List Char) (hseg : findMarker seg = none)
    (hne : ds ≠ []) (hdig : ∀ c ∈ ds, c.isDigit = true) :
    findMarker (seg ++ markerHead ++ ds ++ ']' :: t) = some (seg, ds, t) := by
  induction seg with
  | nil =>
    simp only [List.nil_append]
    exact findMarker_of_parse _ _ _ (by
      have := parseMarkerAt_marker ds t hne hdig
      simpa using this)
  | cons c seg ih =>
    obtain ⟨hp, hf⟩ := findMarker_cons_none c seg hseg
    have htail := ih hf
    have hbridge : parseMarkerAt (c :: (seg ++ markerHead ++ ds ++ ']' :: t)) = none := by
      have hb := parseMarkerAt_append_marker_none (c :: seg) ds t (by simp) hp hne hdig
      simp only [List.cons_append, List.append_assoc] at hb ⊢
      exact hb
    have hshape : (c :: seg) ++ markerHead ++ ds ++ ']' :: t =
        c :: (seg ++ markerHead ++ ds ++ ']' :: t) := by simp
    rw [hshape, findMarker_cons_of_none _ _ hbridge, htail]

/-! ### Resolver output (part_000 lines 291-328) -/

/-- A rendered piece of a text node: literal text, or an interactive
citation reference carrying the 1-based number and the citation. -/
inductive PartNode where
  | text (s : List Char)
  | cite (number : Nat) (citation : Citation)
deriving DecidableEq, Repr

/-- How one matched marker is rendered (part_000 lines 305-318): a citation
reference when the digits are in the map, else the literal matched text. -/
def citeOrText (m : List (List Char × (Nat × Citation))) (ds : List Char) : PartNode :=
  match mapLookup m (keyHead ++ ds) with
  | some nc => PartNode.cite nc.1 nc.2
  | none => PartNode.text (markerHead ++ ds ++ [']'])

/-- The scan loop of part_000 lines 293-327, fuelled by the string length
(each match consumes at least the matched token, so length suffices). -/
def buildPartsF (m : List (List Char × (Nat × Citation))) : Nat → List Char → List PartNode
  | 0, s => if s = [] then [] else [PartNode.text s]
  | fuel + 1, s =>
    match findMarker s with
    | none => if s = [] then [] else [PartNode.text s]
    | some (pre, ds, rest) =>
      (if pre = [] then [] else [PartNode.text pre]) ++
        citeOrText m ds :: buildPartsF m fuel rest

/-- The string case of `processNodeForCitations` (part_000 lines 292-329):
scan into parts, but return the original string node unchanged unless the
scan produced more than one part (line 328). -/
def processTextNode (m : List (List Char × (Nat × Citation))) (s : List Char) :
    List PartNode :=
  let parts := buildPartsF m s.length s
  if 1 < parts.length then parts else [PartNode.text s]

/-! ### C10: a lone valid marker in a text node is not replaced -/

theorem buildPartsF_marker_only (m : List (List Char × (Nat × Citation))) (ds : List Char)
    (hne : ds ≠ []) (hdig : ∀ c ∈ ds, c.isDigit = true) (fuel : Nat) :
    buildPartsF m (fuel + 1) (markerHead ++ ds ++ [']']) = [citeOrText m ds] := by
  have hparse : parseMarkerAt (markerHead ++ ds ++ [']']) = some (ds, []) := by
    have := parseMarkerAt_marker ds [] hne hdig
    simpa using this
  have hfind := findMarker_of_parse _ _ _ hparse
  simp only [buildPartsF, hfind, if_pos rfl, List.nil_append]
  cases fuel <;> simp [buildPartsF, findMarker]

/-- C10: a text node consisting of exactly one bracketed marker
`[CITATION_<ds>]` whose digits are present in the citation map is returned
as the original literal string, not replaced by a citation reference,
because the replacement at part_000 line 328 only happens when the scan
produced more than one part. -/
theorem c10_lone_marker (m : List (List Char × (Nat × Citation))) (ds : List Char)
    (hne : ds ≠ []) (hdig : ∀ c ∈ ds, c.isDigit = true)
    (x : Nat × Citation) (hx : mapLookup m (keyHead ++ ds) = some x) :
    processTextNode m (markerHead ++ ds ++ [']']) =
      [PartNode.text (markerHead ++ ds ++ [']'])] := by
  have hlen : (markerHead ++ ds ++ [']']).length = (10 + ds.length) + 1 := by
    simp [markerHead]
    omega
  have hparts : buildPartsF m (markerHead ++ ds ++ [']']).length (markerHead ++ ds ++ [']']) =
      [citeOrText m ds] := by
    rw [hlen]
    exact buildPartsF_marker_only m ds hne hdig _
  simp only [processTextNode, hparts, List.length_singleton]
  norm_num

/-- Witness for C10: the single marker text `[CITATION_0]`, with index 0
present in a map, stays literal. -/
theorem c10_lone_marker_witness :
    processTextNode [(citationKey 0, (1, ex2))] (markerChars 0) =
      [PartNode.text (markerChars 0)] :=
  c10_lone_marker [(citationKey 0, (1, ex2))] (natDigits 0) (by decide) (by decide)
    (1, ex2) (by decide)

/-! ### Characterizing the insertion loop as segment interleaving -/

/-- Interleaving view of the annotated text: splice each marker at its
(ascending) position; positions in the tail are relative after each drop. -/
def annotated (content : List Char) (idx : Nat) : List Nat → List Char
  | [] => content
  | p :: ps =>
    content.take p ++ markerChars idx ++
      annotated (content.drop p) (idx + 1) (ps.map (fun q => q - p))
termination_by ps => ps.length
decreasing_by simp only [List.length_map, List.length_cons]; omega

theorem annotated_take (content : List Char) (idx q : Nat) (ps : List Nat)
    (hall : ∀ p ∈ ps, q ≤ p) (hlen : q ≤ content.length) :
    (annotated content idx ps).take q = content.take q := by
  cases ps with
  | nil => simp [annotated]
  | cons p ps =>
    have hqp : q ≤ p := hall p (by simp)
    have hmin : q ≤ (content.take p).length := by
      simp only [List.length_take]
      omega
    simp only [annotated, List.append_assoc]
    rw [List.take_append_of_le_length hmin, List.take_take, Nat.min_eq_left hqp]

theorem annotated_drop (content : List Char) (idx q : Nat) (ps : List Nat)
    (hall : ∀ p ∈ ps, q ≤ p) (hlen : q ≤ content.length) :
    (annotated content idx ps).drop q =
      annotated (content.drop q) idx (ps.map (fun p => p - q)) := by
  cases ps with
  | nil => simp [annotated]
  | cons p ps =>
    have hqp : q ≤ p := hall p (by simp)
    have hmin : q ≤ (content.take p).length := by
      simp only [List.length_take]
      omega
    simp only [annotated, List.append_assoc, List.map_cons]
    rw [List.drop_append_of_le_length hmin]
    have e1 : (content.take p).drop q = (content.drop q).take (p - q) := by
      rw [List.drop_take]
    have e2 : content.drop p = (content.drop q).drop (p - q) := by
      rw [List.drop_drop]
      congr 1
      omega
    have e3 : ps.map (fun x => x - p) =
        (ps.map (fun x => x - q)).map (fun x => x - (p - q)) := by
      rw [List.map_map]
      apply List.map_congr_left
      intro x _
      simp only [Function.comp_apply]
      omega
    rw [e1, e2, e3]

/-- The descending splice loop produces exactly the interleaving of content
segments and marker tokens, provided positions are ascending and in range. -/
theorem insertMarkersFrom_eq_annotated :
    ∀ (vs : List Citation) (content : List Char) (idx : Nat),
      List.Pairwise (fun a b => posNat a ≤ posNat b) vs →
      (∀ c ∈ vs, posNat c ≤ content.length) →
      insertMarkersFrom idx vs content = annotated content idx (vs.map posNat) := by
  intro vs
  induction vs with
  | nil => intro content idx _ _; simp [insertMarkersFrom, annotated]
  | cons v vs ih =>
    intro content idx hpw hbound
    have hpw2 : List.Pairwise (fun a b => posNat a ≤ posNat b) vs :=
      (List.pairwise_cons.mp hpw).2
    have hhead : ∀ c ∈ vs, posNat v ≤ posNat c := (List.pairwise_cons.mp hpw).1
    have hbound2 : ∀ c ∈ vs, posNat c ≤ content.length :=
      fun c hc => hbound c (by simp [hc])
    have hvlen : posNat v ≤ content.length := hbound v (by simp)
    have hIH := ih content (idx + 1) hpw2 hbound2
    have hall : ∀ p ∈ vs.map posNat, posNat v ≤ p := by
      intro p hp
      obtain ⟨c, hc, rfl⟩ := List.mem_map.mp hp
      exact hhead c hc
    simp only [insertMarkersFrom, hIH, List.map_cons, annotated]
    rw [annotated_take content (idx + 1) (posNat v) (vs.map posNat) hall hvlen,
      annotated_drop content (idx + 1) (posNat v) (vs.map posNat) hall hvlen]

/-! ### Marker-freeness is closed under taking substrings -/

theorem parseMarkerAt_mono (s t ds r : List Char) (h : parseMarkerAt s = some (ds, r)) :
    parseMarkerAt (s ++ t) = some (ds, r ++ t) := by
  obtain ⟨heq, hne, hdig⟩ := parseMarkerAt_some s ds r h
  subst heq
  have := parseMarkerAt_marker ds (r ++ t) hne hdig
  simp only [List.append_assoc, List.cons_append] at this ⊢
  exact this

theorem findMarker_eq_none_intro (c : Char) (cs : List Char)
    (h1 : parseMarkerAt (c :: cs) = none) (h2 : findMarker cs = none) :
    findMarker (c :: cs) = none := by
  simp [findMarker, h1, h2]

theorem findMarker_prefix_none : ∀ (s t : List Char), findMarker (s ++ t) = none →
    findMarker s = none := by
  intro s
  induction s with
  | nil => intro t _; rfl
  | cons c s ih =>
    intro t h
    rw [List.cons_append] at h
    obtain ⟨hp, hf⟩ := findMarker_cons_none c (s ++ t) h
    have hs := ih t hf
    apply findMarker_eq_none_intro c s _ hs
    cases hcs : parseMarkerAt (c :: s) with
    | none => rfl
    | some p =>
      exfalso
      obtain ⟨ds, r⟩ := p
      have := parseMarkerAt_mono (c :: s) t ds r hcs
      rw [List.cons_append] at this
      rw [hp] at this
      cases this

theorem findMarker_suffix_none : ∀ (s t : List Char), findMarker (s ++ t) = none →
    findMarker t = none := by
  intro s
  induction s with
  | nil => intro t h; simpa using h
  | cons c s ih =>
    intro t h
    rw [List.cons_append] at h
    exact ih t (findMarker_cons_none c (s ++ t) h).2

theorem findMarker_take_none (s : List Char) (k : Nat) (h : findMarker s = none) :
    findMarker (s.take k) = none := by
  apply findMarker_prefix_none (s.take k) (s.drop k)
  rwa [List.take_append_drop]

theorem findMarker_drop_none (s : List Char) (k : Nat) (h : findMarker s = none) :
    findMarker (s.drop k) = none := by
  apply findMarker_suffix_none (s.take k) (s.drop k)
  rwa [List.take_append_drop]

/-! ### Scanning the annotated text -/

theorem buildPartsF_no_marker (m : List (List Char × (Nat × Citation))) (s : List Char)
    (h : findMarker s = none) (fuel : Nat) :
    buildPartsF m fuel s = if s = [] then [] else [PartNode.text s] := by
  cases fuel with
  | zero => rfl
  | succ f => simp [buildPartsF, h]

/-- Expected scan result over the interleaved text: one part per nonempty
content segment and one resolved-or-literal part per marker, in order. -/
def scanSpec (m : List (List Char × (Nat × Citation))) (content : List Char) (idx : Nat) :
    List Nat → List PartNode
  | [] => if content = [] then [] else [PartNode.text content]
  | p :: ps =>
    (if content.take p = [] then [] else [PartNode.text (content.take p)]) ++
      citeOrText m (natDigits idx) ::
        scanSpec m (content.drop p) (idx + 1) (ps.map (fun q => q - p))
termination_by ps => ps.length
decreasing_by simp only [List.length_map, List.length_cons]; omega

theorem buildPartsF_annotated_aux (m : List (List Char × (Nat × Citation))) :
    ∀ (n : Nat) (ps : List Nat), ps.length ≤ n → ∀ (content : List Char) (idx fuel : Nat),
      (annotated content idx ps).length ≤ fuel →
      (∀ p ∈ ps, p ≤ content.length) →
      findMarker content = none →
      buildPartsF m fuel (annotated content idx ps) = scanSpec m content idx ps := by
  intro n
  induction n with
  | zero =>
    intro ps hlen content idx fuel _ _ hfree
    have hnil : ps = [] := List.length_eq_zero.mp (by omega)
    subst hnil
    simp only [annotated, scanSpec]
    exact buildPartsF_no_marker m content hfree fuel
  | succ n ihn =>
  intro ps hlen
  cases ps with
  | nil =>
    intro content idx fuel _ _ hfree
    simp only [annotated, scanSpec]
    exact buildPartsF_no_marker m content hfree fuel
  | cons p ps =>
    intro content idx fuel hfuel hbound hfree
    have ih : ∀ (content : List Char) (idx fuel : Nat),
        (annotated content idx (ps.map (fun q => q - p))).length ≤ fuel →
        (∀ q ∈ ps.map (fun q => q - p), q ≤ content.length) →
        findMarker content = none →
        buildPartsF m fuel (annotated content idx (ps.map (fun q => q - p))) =
          scanSpec m content idx (ps.map (fun q => q - p)) := by
      intro content2 idx2 fuel2
      exact ihn (ps.map (fun q => q - p)) (by simp at hlen ⊢; omega) content2 idx2 fuel2
    have hple : p ≤ content.length := hbound p (by simp)
    have hseg : findMarker (content.take p) = none := findMarker_take_none content p hfree
    have hdigs := natDigits_digits idx
    have hdne := natDigits_ne_nil idx
    have hfind : findMarker (content.take p ++ markerChars idx ++
        annotated (content.drop p) (idx + 1) (ps.map (fun q => q - p))) =
        some (content.take p, natDigits idx,
          annotated (content.drop p) (idx + 1) (ps.map (fun q => q - p))) := by
      have := findMarker_append_marker (content.take p) (natDigits idx)
        (annotated (content.drop p) (idx + 1) (ps.map (fun q => q - p))) hseg hdne hdigs
      simp only [markerChars, List.append_assoc, List.cons_append, List.singleton_append]
        at this ⊢
      exact this
    have hanncons : annotated content idx (p :: ps) = content.take p ++ markerChars idx ++
        annotated (content.drop p) (idx + 1) (ps.map (fun q => q - p)) := by
      simp [annotated]
    cases fuel with
    | zero =>
      exfalso
      rw [hanncons] at hfuel
      simp only [List.length_append, markerChars, List.length_cons, Nat.le_zero] at hfuel
      omega
    | succ f =>
      rw [hanncons]
      simp only [buildPartsF, hfind]
      have hfuel2 : (annotated (content.drop p) (idx + 1)
          (ps.map (fun q => q - p))).length ≤ f := by
        rw [hanncons] at hfuel
        simp only [List.length_append, markerChars, List.length_append, List.length_cons]
          at hfuel
        have hmlen : (markerHead).length = 10 := by decide
        omega
      have hbound2 : ∀ q ∈ ps.map (fun q => q - p), q ≤ (content.drop p).length := by
        intro q hq
        obtain ⟨q0, hq0, rfl⟩ := List.mem_map.mp hq
        have := hbound q0 (by simp [hq0])
        simp only [List.length_drop]
        omega
      have hfree2 : findMarker (content.drop p) = none := findMarker_drop_none content p hfree
      rw [ih (content.drop p) (idx + 1) f hfuel2 hbound2 hfree2]
      simp [scanSpec]

theorem buildPartsF_annotated (m : List (List Char × (Nat × Citation)))
    (ps : List Nat) (content : List Char) (idx fuel : Nat)
    (hfuel : (annotated content idx ps).length ≤ fuel)
    (hbound : ∀ p ∈ ps, p ≤ content.length)
    (hfree : findMarker content = none) :
    buildPartsF m fuel (annotated content idx ps) = scanSpec m content idx ps :=
  buildPartsF_annotated_aux m ps.length ps le_rfl content idx fuel hfuel hbound hfree

/-! ### Claim-side view of the round trip -/

/-- Expected round-trip output, phrased as the round-trip sentences of the
specification: walking the surviving citations in indexed order, emit the
(nonempty) text segment between the previous offset and this citation's
offset, then one citation-reference node carrying the 1-based number and
the citation; close with the (nonempty) text after the last offset. -/
def expectedAux (content : List Char) : Nat → Nat → List Citation → List PartNode
  | prev, _, [] =>
    if content.drop prev = [] then [] else [PartNode.text (content.drop prev)]
  | prev, num, c :: rest =>
    (if (content.take (posNat c)).drop prev = [] then []
     else [PartNode.text ((content.take (posNat c)).drop prev)]) ++
      PartNode.cite num c :: expectedAux content (posNat c) (num + 1) rest

/-- Expected round-trip output for a whole content string. -/
def expectedParts (content : List Char) (valid : List Citation) : List PartNode :=
  expectedAux content 0 1 valid

theorem scanSpec_eq_expectedAux :
    ∀ (valid : List Citation) (content : List Char)
      (m : List (List Char × (Nat × Citation))) (idx prev : Nat),
      (∀ j c, valid.get? j = some c →
        mapLookup m (keyHead ++ natDigits (idx + j)) = some (idx + j + 1, c)) →
      (∀ c ∈ valid, prev ≤ posNat c) →
      (∀ c ∈ valid, posNat c ≤ content.length) →
      prev ≤ content.length →
      List.Pairwise (fun a b => posNat a ≤ posNat b) valid →
      scanSpec m (content.drop prev) idx ((valid.map posNat).map (fun q => q - prev)) =
        expectedAux content prev (idx + 1) valid := by
  intro valid
  induction valid with
  | nil =>
    intro content m idx prev _ _ _ _ _
    simp [scanSpec, expectedAux]
  | cons c0 rest ih =>
    intro content m idx prev hlook hge hbound hprev hpw
    have hp : prev ≤ posNat c0 := hge c0 (by simp)
    have hpc : posNat c0 ≤ content.length := hbound c0 (by simp)
    have e1 : (content.drop prev).take (posNat c0 - prev) =
        (content.take (posNat c0)).drop prev := (List.drop_take (posNat c0) prev content).symm
    have e2 : (content.drop prev).drop (posNat c0 - prev) = content.drop (posNat c0) := by
      rw [List.drop_drop]
      congr 1
      omega
    have e3 : ((rest.map posNat).map (fun q => q - prev)).map
        (fun q => q - (posNat c0 - prev)) = (rest.map posNat).map (fun q => q - posNat c0) := by
      rw [List.map_map]
      apply List.map_congr_left
      intro x _
      simp only [Function.comp_apply]
      omega
    have e4 : citeOrText m (natDigits idx) = PartNode.cite (idx + 1) c0 := by
      have hl := hlook 0 c0 (by simp)
      simp only [Nat.add_zero] at hl
      simp [citeOrText, hl]
    have hIH := ih content m (idx + 1) (posNat c0)
      (by
        intro j c hj
        have := hlook (j + 1) c (by simpa using hj)
        have harith : idx + (j + 1) = idx + 1 + j := by omega
        rwa [harith] at this)
      (by
        intro c hc
        exact (List.pairwise_cons.mp hpw).1 c hc)
      (fun c hc => hbound c (by simp [hc])) hpc (List.pairwise_cons.mp hpw).2
    simp only [List.map_cons, scanSpec, e1, e2, e3, e4, hIH, expectedAux]

/-! ### Shape facts about the expected output -/

def partCites : List PartNode → List (Nat × Citation)
  | [] => []
  | PartNode.text _ :: rest => partCites rest
  | PartNode.cite n c :: rest => (n, c) :: partCites rest

def partText : List PartNode → List Char
  | [] => []
  | PartNode.text s :: rest => s ++ partText rest
  | PartNode.cite _ _ :: rest => partText rest

/-- Text accumulated before the `(k+1)`-th citation-reference node. -/
def textBeforeCite : Nat → List PartNode → List Char
  | _, [] => []
  | 0, PartNode.cite _ _ :: _ => []
  | k + 1, PartNode.cite _ _ :: rest => textBeforeCite k rest
  | k, PartNode.text s :: rest => s ++ textBeforeCite k rest

theorem partCites_append (a b : List PartNode) :
    partCites (a ++ b) = partCites a ++ partCites b := by
  induction a with
  | nil => rfl
  | cons x a ih => cases x <;> simp [partCites, ih]

theorem partText_append (a b : List PartNode) :
    partText (a ++ b) = partText a ++ partText b := by
  induction a with
  | nil => rfl
  | cons x a ih => cases x <;> simp [partText, ih]

theorem partCites_optText (s : List Char) :
    partCites (if s = [] then [] else [PartNode.text s]) = [] := by
  by_cases h : s = [] <;> simp [h, partCites]

theorem partText_optText (s : List Char) :
    partText (if s = [] then [] else [PartNode.text s]) = s := by
  by_cases h : s = [] <;> simp [h, partText]

theorem partCites_expectedAux :
    ∀ (valid : List Citation) (content : List Char) (prev num : Nat),
      partCites (expectedAux content prev num valid) = valid.enumFrom num := by
  intro valid
  induction valid with
  | nil =>
    intro content prev num
    by_cases h : content.drop prev = [] <;> simp [expectedAux, h, partCites]
  | cons c0 rest ih =>
    intro content prev num
    simp only [expectedAux, partCites_append, partCites_optText, List.nil_append, partCites,
      ih, List.enumFrom]

theorem drop_eq_take_drop_append (l : List Char) (prev p : Nat) (h1 : prev ≤ p)
    (h2 : prev ≤ l.length) : (l.take p).drop prev ++ l.drop p = l.drop prev := by
  have hmin : prev ≤ (l.take p).length := by
    simp only [List.length_take]
    omega
  conv_rhs => rw [← List.take_append_drop p l]
  rw [List.drop_append_of_le_length hmin]

theorem partText_expectedAux :
    ∀ (valid : List Citation) (content : List Char) (prev num : Nat),
      (∀ c ∈ valid, prev ≤ posNat c) →
      (∀ c ∈ valid, posNat c ≤ content.length) →
      prev ≤ content.length →
      List.Pairwise (fun a b => posNat a ≤ posNat b) valid →
      partText (expectedAux content prev num valid) = content.drop prev := by
  intro valid
  induction valid with
  | nil =>
    intro content prev num _ _ _ _
    by_cases h : content.drop prev = [] <;> simp [expectedAux, h, partText]
  | cons c0 rest ih =>
    intro content prev num hge hbound hprev hpw
    have hp : prev ≤ posNat c0 := hge c0 (by simp)
    have hpc : posNat c0 ≤ content.length := hbound c0 (by simp)
    have hIH := ih content (posNat c0) (num + 1)
      (fun c hc => (List.pairwise_cons.mp hpw).1 c hc)
      (fun c hc => hbound c (by simp [hc])) hpc (List.pairwise_cons.mp hpw).2
    simp only [expectedAux, partText_append, partText_optText, partText, hIH]
    exact drop_eq_take_drop_append content prev (posNat c0) hp hprev

theorem partCites_length_le : ∀ (parts : List PartNode),
    (partCites parts).length ≤ parts.length := by
  intro parts
  induction parts with
  | nil => simp [partCites]
  | cons x rest ih => cases x <;> simp [partCites] <;> omega

theorem one_lt_length_expectedParts (content : List Char) (valid : List Citation)
    (hc : content ≠ []) (hv : valid ≠ []) : 1 < (expectedParts content valid).length := by
  obtain ⟨c0, rest, rfl⟩ := List.exists_cons_of_ne_nil hv
  cases rest with
  | cons c1 rest2 =>
    have h1 := partCites_length_le (expectedAux content 0 1 (c0 :: c1 :: rest2))
    have h2 := partCites_expectedAux (c0 :: c1 :: rest2) content 0 1
    rw [h2] at h1
    simp only [List.enumFrom, List.length_cons] at h1
    simpa [expectedParts] using lt_of_lt_of_le (by omega) h1
  | nil =>
    by_cases hseg : (content.take (posNat c0)).drop 0 = []
    · have hp0 : content.take (posNat c0) = [] := by simpa using hseg
      have hp : posNat c0 = 0 := by
        rcases List.take_eq_nil_iff.mp hp0 with h | h
        · exact h
        · exact absurd h hc
      simp [expectedParts, expectedAux, hseg, hp, hc]
    · simp only [expectedParts, expectedAux, hseg, if_false]
      by_cases htail : content.drop (posNat c0) = [] <;>
        simp [expectedAux, htail]

theorem textBeforeCite_optText (s : List Char) (k : Nat) (rest : List PartNode) :
    textBeforeCite k ((if s = [] then [] else [PartNode.text s]) ++ rest) =
      s ++ textBeforeCite k rest := by
  by_cases h : s = []
  · simp [h]
  · cases k <;> simp [h, textBeforeCite]

theorem textBeforeCite_expectedAux :
    ∀ (valid : List Citation) (content : List Char) (prev num k : Nat) (c : Citation),
      (∀ c2 ∈ valid, prev ≤ posNat c2) →
      (∀ c2 ∈ valid, posNat c2 ≤ content.length) →
      prev ≤ content.length →
      List.Pairwise (fun a b => posNat a ≤ posNat b) valid →
      valid.get? k = some c →
      textBeforeCite k (expectedAux content prev num valid) =
        (content.take (posNat c)).drop prev := by
  intro valid
  induction valid with
  | nil => intro content prev num k c _ _ _ _ hk; simp at hk
  | cons c0 rest ih =>
    intro content prev num k c hge hbound hprev hpw hk
    have hp : prev ≤ posNat c0 := hge c0 (by simp)
    have hpc : posNat c0 ≤ content.length := hbound c0 (by simp)
    cases k with
    | zero =>
      simp only [List.get?] at hk
      injection hk with hk
      subst hk
      simp only [expectedAux]
      rw [textBeforeCite_optText]
      simp [textBeforeCite]
    | succ k =>
      simp only [List.get?] at hk
      have hcrest : c ∈ rest := List.get?_mem hk
      have hppc : posNat c0 ≤ posNat c := (List.pairwise_cons.mp hpw).1 c hcrest
      have hIH := ih content (posNat c0) (num + 1) k c
        (fun c2 hc2 => (List.pairwise_cons.mp hpw).1 c2 hc2)
        (fun c2 hc2 => hbound c2 (by simp [hc2])) hpc
        (List.pairwise_cons.mp hpw).2 hk
      simp only [expectedAux]
      rw [textBeforeCite_optText]
      have hstep : textBeforeCite (k + 1)
          (PartNode.cite num c0 :: expectedAux content (posNat c0) (num + 1) rest) =
          textBeforeCite k (expectedAux content (posNat c0) (num + 1) rest) := by
        simp [textBeforeCite]
      rw [hstep, hIH]
      have htt : (content.take (posNat c)).take (posNat c0) = content.take (posNat c0) := by
        rw [List.take_take]
        congr 1
        exact Nat.min_eq_left hppc
      have := drop_eq_take_drop_append (content.take (posNat c)) prev (posNat c0) hp
        (by
          simp only [List.length_take]
          omega)
      rw [htt] at this
      exact this

/-! ### Facts about the filtered-and-sorted citation list -/

theorem valid_pairwise (content : List Char) (cs : List Citation) :
    List.Pairwise (fun a b => posNat a ≤ posNat b) (insertValidCitations content cs) := by
  have h := List.sorted_insertionSort posLE (cs.filter (citationValid content))
  exact h.imp (fun hab => Int.toNat_le_toNat hab)

theorem valid_mem_valid (content : List Char) (cs : List Citation) :
    ∀ c ∈ insertValidCitations content cs, citationValid content c = true := by
  intro c hc
  rw [insertValidCitations, List.mem_insertionSort] at hc
  exact (List.mem_filter.mp hc).2

theorem valid_bound (content : List Char) (cs : List Citation) :
    ∀ c ∈ insertValidCitations content cs, posNat c ≤ content.length := by
  intro c hc
  have h := valid_mem_valid content cs c hc
  simp only [citationValid, Bool.and_eq_true, decide_eq_true_eq] at h
  exact Int.toNat_le.mpr h.2

/-! ### The round trip -/

theorem roundTrip_eq (content : List Char) (cs : List Citation)
    (hfree : findMarker content = none) (hcne : content ≠ []) :
    processTextNode (citationMap content cs) (insertCitationMarkers content cs) =
      expectedParts content (insertValidCitations content cs) := by
  by_cases hvalid : (insertValidCitations content cs).isEmpty
  · rw [List.isEmpty_iff] at hvalid
    have hins : insertCitationMarkers content cs = content := by
      by_cases hcs : cs.isEmpty <;> simp [insertCitationMarkers, hcs, hvalid]
    rw [hins, hvalid]
    have hparts := buildPartsF_no_marker (citationMap content cs) content hfree content.length
    simp only [processTextNode, hparts, hcne, if_false, expectedParts, expectedAux,
      List.drop_zero]
    simp [hcne]
  · have hvne : insertValidCitations content cs ≠ [] := by
      intro h
      rw [h] at hvalid
      simp at hvalid
    have hcsne : ¬cs.isEmpty := by
      intro h
      rw [List.isEmpty_iff] at h
      subst h
      exact hvne (by simp [insertValidCitations, List.insertionSort])
    have hins : insertCitationMarkers content cs =
        insertMarkersFrom 0 (insertValidCitations content cs) content := by
      simp [insertCitationMarkers, hcsne, hvalid]
    have hann : insertMarkersFrom 0 (insertValidCitations content cs) content =
        annotated content 0 ((insertValidCitations content cs).map posNat) :=
      insertMarkersFrom_eq_annotated _ content 0 (valid_pairwise content cs)
        (valid_bound content cs)
    have hboundm : ∀ p ∈ (insertValidCitations content cs).map posNat,
        p ≤ content.length := by
      intro p hp
      obtain ⟨c, hc, rfl⟩ := List.mem_map.mp hp
      exact valid_bound content cs c hc
    have hbuild := buildPartsF_annotated (citationMap content cs)
      ((insertValidCitations content cs).map posNat) content 0
      (annotated content 0 ((insertValidCitations content cs).map posNat)).length
      le_rfl hboundm hfree
    have hlook : ∀ j c, (insertValidCitations content cs).get? j = some c →
        mapLookup (citationMap content cs) (keyHead ++ natDigits (0 + j)) =
          some (0 + j + 1, c) := by
      intro j c hj
      have := citationMap_lookup content cs j c hj
      simpa [citationKey] using this
    have hmap0 : ((insertValidCitations content cs).map posNat).map (fun q => q - 0) =
        (insertValidCitations content cs).map posNat := by
      simp
    have hscan := scanSpec_eq_expectedAux (insertValidCitations content cs) content
      (citationMap content cs) 0 0 hlook (fun c _ => Nat.zero_le _)
      (valid_bound content cs) (Nat.zero_le _) (valid_pairwise content cs)
    rw [List.drop_zero, hmap0] at hscan
    have hlen := one_lt_length_expectedParts content (insertValidCitations content cs)
      hcne hvne
    simp only [processTextNode, hins, hann, hbuild, hscan]
    simp only [expectedParts, Nat.zero_add] at hlen ⊢
    simp [hlen]

/-- C3 (amended): for every nonempty content string containing no substring
shaped like a bracketed marker `[CITATION_<digits>]`, and every citation
sequence, the round trip `resolve(insert(content, index(content, cits)), cits)`
equals the expected interleaving: exactly one citation-reference node per
surviving citation in indexed order (numbered `i + 1`), non-marker text
preserved unchanged with sibling order preserved, the concatenated text of
the output (stripping the markers) recovering exactly the original content,
and the text preceding the `k`-th reference node being exactly the first
`position(k)` characters of the content. -/
theorem c3_round_trip_amended (content : List Char) (cs : List Citation)
    (hfree : findMarker content = none) (hcne : content ≠ []) :
    processTextNode (citationMap content cs) (insertCitationMarkers content cs) =
      expectedParts content (insertValidCitations content cs) ∧
    partCites (processTextNode (citationMap content cs) (insertCitationMarkers content cs)) =
      (insertValidCitations content cs).enumFrom 1 ∧
    partText (processTextNode (citationMap content cs) (insertCitationMarkers content cs)) =
      content ∧
    ∀ k c, (insertValidCitations content cs).get? k = some c →
      textBeforeCite k (processTextNode (citationMap content cs)
        (insertCitationMarkers content cs)) = content.take (posNat c) := by
  have h1 := roundTrip_eq content cs hfree hcne
  refine ⟨h1, ?_, ?_, ?_⟩
  · rw [h1]
    exact partCites_expectedAux _ content 0 1
  · rw [h1]
    have h := partText_expectedAux (insertValidCitations content cs) content 0 1
      (fun c _ => Nat.zero_le _) (valid_bound content cs) (Nat.zero_le _)
      (valid_pairwise content cs)
    simpa [expectedParts] using h
  · intro k c hk
    rw [h1]
    have h := textBeforeCite_expectedAux (insertValidCitations content cs) content 0 1 k c
      (fun c2 _ => Nat.zero_le _) (valid_bound content cs) (Nat.zero_le _)
      (valid_pairwise content cs) hk
    simpa [expectedParts] using h

def wContent : List Char := "ab".data

def wCit : Citation := ⟨1, [40]⟩

/-- Witness for C3 at a concrete input: content `"ab"` with one citation at
offset 1 round-trips to the expected interleaving. -/
theorem c3_round_trip_witness :
    processTextNode (citationMap wContent [wCit]) (insertCitationMarkers wContent [wCit]) =
      expectedParts wContent (insertValidCitations wContent [wCit]) :=
  (c3_round_trip_amended wContent [wCit] (by decide) (by decide)).1

def cexContent : List Char := "[CITATION_0]x".data

def cexCit : Citation := ⟨13, [30]⟩

/-- Counterexample to C3 as stated: content that itself contains the
marker-shaped substring `[CITATION_0]` (13 characters) with one valid
citation at offset 13 survives indexing as one citation, yet resolution of
the inserter's output produces two citation-reference nodes, because the
in-band marker text in the original content also matches the scan. -/
theorem c3_counterexample :
    (insertValidCitations cexContent [cexCit]).length = 1 ∧
    (partCites (processTextNode (citationMap cexContent [cexCit])
        (insertCitationMarkers cexContent [cexCit]))).length = 2 := by
  constructor
  · decide
  · decide

/-! ### JavaScript values

The stream bridge (src/app/api/chat/route.ts) operates on loosely-typed
JavaScript values: parsed JSON, SDK chunk objects, and error objects.  A
JSON number is kept as parsed components (sign, integer digits, fraction
digits, exponent); the bridge never computes with numbers, only tests
truthiness. -/

inductive Js where
  | null
  | bool (b : Bool)
  | num (neg : Bool) (intPart : List Char) (fracPart : List Char) (expPart : Int)
  | str (s : List Char)
  | arr (elems : List Js)
  | obj (fields : List (List Char × Js))

def kType : List Char := "type".data

def kMessage : List Char := "message".data

def kError : List Char := "error".data

def kDelta : List Char := "delta".data

def kContent : List Char := "content".data

def kId : List Char := "id".data

def kModel : List Char := "model".data

def kRole : List Char := "role".data

def kCitationField : List Char := "citation".data

def kFinish : List Char := "finish_reason".data

def kUsage : List Char := "usage".data

/-- Property access `v[k]`: last field wins, as with objects produced by
`JSON.parse` under duplicate keys; non-objects have no such property. -/
def jsGet (v : Js) (k : List Char) : Option Js :=
  match v with
  | Js.obj fields => fields.foldl (fun acc f => if f.1 = k then some f.2 else acc) none
  | _ => none

/-- Optional chaining `v?.k1?.k2`-style double access. -/
def jsGet2 (v : Js) (k1 k2 : List Char) : Option Js :=
  match jsGet v k1 with
  | some w => jsGet w k2
  | none => none

/-- JavaScript truthiness. -/
def jsTruthy : Js → Bool
  | Js.null => false
  | Js.bool b => b
  | Js.num _ ip fp _ => !((ip ++ fp).all (fun c => decide (c = '0')))
  | Js.str s => !s.isEmpty
  | Js.arr _ => true
  | Js.obj _ => true

/-- Truthiness of a possibly-undefined value (`undefined` is falsy). -/
def optTruthy : Option Js → Bool
  | some v => jsTruthy v
  | none => false

/-- The `typeof v === 'object'` test for non-null values (objects and
arrays; `null` is excluded separately by a truthiness guard). -/
def isObjOrArr : Js → Bool
  | Js.obj _ => true
  | Js.arr _ => true
  | _ => false

def isJsStr : Js → Bool
  | Js.str _ => true
  | _ => false

/-! ### JSON.parse

Models the platform `JSON.parse` used at route.ts lines 48, 142 and 150:
a recursive-descent parser over the JSON grammar, fuelled by input length
(every recursion step first consumes at least one character). -/

def jsWS (c : Char) : Bool := c = ' ' || c = '\t' || c = '\n' || c = '\r'

def hexVal (c : Char) : Option Nat :=
  if c.isDigit then some (c.toNat - 48)
  else if 'a' ≤ c ∧ c ≤ 'f' then some (c.toNat - 87)
  else if 'A' ≤ c ∧ c ≤ 'F' then some (c.toNat - 55)
  else none

/-- Body of a JSON string literal after the opening quote; returns the
decoded content and the rest after the closing quote. -/
def jsonStringBody : Nat → List Char → List Char → Option (List Char × List Char)
  | 0, _, _ => none
  | fuel + 1, s, acc =>
    match s with
    | [] => none
    | c :: rest =>
      if c = '"' then some (acc.reverse, rest)
      else if c = '\\' then
        match rest with
        | [] => none
        | e :: rest2 =>
          if e = '"' then jsonStringBody fuel rest2 ('"' :: acc)
          else if e = '\\' then jsonStringBody fuel rest2 ('\\' :: acc)
          else if e = '/' then jsonStringBody fuel rest2 ('/' :: acc)
          else if e = 'b' then jsonStringBody fuel rest2 ('\x08' :: acc)
          else if e = 'f' then jsonStringBody fuel rest2 ('\x0c' :: acc)
          else if e = 'n' then jsonStringBody fuel rest2 ('\n' :: acc)
          else if e = 'r' then jsonStringBody fuel rest2 ('\x0d' :: acc)
          else if e = 't' then jsonStringBody fuel rest2 ('\t' :: acc)
          else if e = 'u' then
            match rest2 with
            | h1 :: h2 :: h3 :: h4 :: rest3 =>
              match hexVal h1, hexVal h2, hexVal h3, hexVal h4 with
              | some v1, some v2, some v3, some v4 =>
                jsonStringBody fuel rest3
                  (Char.ofNat (((v1 * 16 + v2) * 16 + v3) * 16 + v4) :: acc)
              | _, _, _, _ => none
            | _ => none
          else none
      else jsonStringBody fuel rest (c :: acc)

def jsonNumberExp (neg : Bool) (ip fp : List Char) (s : List Char) :
    Option (Js × List Char) :=
  match s with
  | c :: rest =>
    if c = 'e' || c = 'E' then
      match rest with
      | '+' :: r1 =>
        let ed := r1.takeWhile Char.isDigit
        if ed = [] then none
        else some (Js.num neg ip fp (decodeNat ed : Int), r1.dropWhile Char.isDigit)
      | '-' :: r1 =>
        let ed := r1.takeWhile Char.isDigit
        if ed = [] then none
        else some (Js.num neg ip fp (-(decodeNat ed : Int)), r1.dropWhile Char.isDigit)
      | _ =>
        let ed := rest.takeWhile Char.isDigit
        if ed = [] then none
        else some (Js.num neg ip fp (decodeNat ed : Int), rest.dropWhile Char.isDigit)
    else some (Js.num neg ip fp 0, s)
  | [] => some (Js.num neg ip fp 0, [])

def jsonNumber (s : List Char) : Option (Js × List Char) :=
  let neg := decide (s.head? = some '-')
  let s1 := if neg then s.tail else s
  let ip := s1.takeWhile Char.isDigit
  let r1 := s1.dropWhile Char.isDigit
  if ip = [] then none
  else if 1 < ip.length ∧ ip.head? = some '0' then none
  else
    match r1 with
    | '.' :: r2 =>
      let fp := r2.takeWhile Char.isDigit
      if fp = [] then none
      else jsonNumberExp neg ip fp (r2.dropWhile Char.isDigit)
    | _ => jsonNumberExp neg ip [] r1

mutual

def jsonValue : Nat → List Char → Option (Js × List Char)
  | 0, _ => none
  | fuel + 1, s0 =>
    let s := s0.dropWhile jsWS
    match s with
    | [] => none
    | c :: rest =>
      if c = '"' then
        match jsonStringBody (rest.length + 1) rest [] with
        | some (content, r) => some (Js.str content, r)
        | none => none
      else if c = '\x7b' then jsonObjectFields fuel rest [] true
      else if c = '[' then jsonArrayElems fuel rest [] true
      else if s.take 4 = "true".data then some (Js.bool true, s.drop 4)
      else if s.take 5 = "false".data then some (Js.bool false, s.drop 5)
      else if s.take 4 = "null".data then some (Js.null, s.drop 4)
      else jsonNumber s

def jsonObjectFields : Nat → List Char → List (List Char × Js) → Bool →
    Option (Js × List Char)
  | 0, _, _, _ => none
  | fuel + 1, s0, acc, allowEnd =>
    let s := s0.dropWhile jsWS
    match s with
    | [] => none
    | c :: rest =>
      if c = '\x7d' then
        if allowEnd then some (Js.obj acc.reverse, rest) else none
      else if c = '"' then
        match jsonStringBody (rest.length + 1) rest [] with
        | some (key, r1) =>
          match r1.dropWhile jsWS with
          | ':' :: r3 =>
            match jsonValue fuel r3 with
            | some (v, r4) =>
              match r4.dropWhile jsWS with
              | ',' :: r6 => jsonObjectFields fuel r6 ((key, v) :: acc) false
              | '\x7d' :: r6 => some (Js.obj ((key, v) :: acc).reverse, r6)
              | _ => none
            | none => none
          | _ => none
        | none => none
      else none

def jsonArrayElems : Nat → List Char → List Js → Bool → Option (Js × List Char)
  | 0, _, _, _ => none
  | fuel + 1, s0, acc, allowEnd =>
    let s := s0.dropWhile jsWS
    match s with
    | [] => none
    | c :: _ =>
      if c = ']' then
        if allowEnd then some (Js.arr acc.reverse, s.tail) else none
      else
        match jsonValue fuel s with
        | some (v, r1) =>
          match r1.dropWhile jsWS with
          | ',' :: r2 => jsonArrayElems fuel r2 (v :: acc) false
          | ']' :: r2 => some (Js.arr (v :: acc).reverse, r2)
          | _ => none
        | none => none

end

/-- `JSON.parse`: parse one value and require only whitespace after it;
any failure corresponds to the platform function throwing. -/
def jsonParse (s : List Char) : Option Js :=
  match jsonValue (s.length + 1) s with
  | some (v, rest) => if rest.dropWhile jsWS = [] then some v else none
  | none => none

/-! ### Error message extraction (route.ts lines 137-179) -/

def defaultErrorMessage : Js := Js.str ("An error occurred").data

/-- The strict comparison `errorMessage === 'An error occurred'` at
route.ts line 173. -/
def isDefaultMsg : Js → Bool
  | Js.str s => decide (s = ("An error occurred").data)
  | _ => false

/-- JavaScript `a || b`. -/
def jsOr (a b : Js) : Js := if jsTruthy a then a else b

/-- The fallback chain of route.ts lines 161-170: `parsed.message` when
truthy, else a string-typed `parsed.error`, else the raw original
message. -/
def breakChain2 (origMsg parsed : Js) : Js :=
  match jsGet parsed kError with
  | some (Js.str s) => Js.str s
  | _ => origMsg

def breakChain (origMsg parsed : Js) : Js :=
  match jsGet parsed kMessage with
  | some m2 => if jsTruthy m2 then m2 else breakChain2 origMsg parsed
  | none => breakChain2 origMsg parsed

/-- The `while` loop of route.ts lines 145-171.  Each `continue` step
descends either into a strictly smaller object or into a value parsed from
a strictly shorter embedded string, so fuel equal to the size of the
initial parse input bounds the provably terminating loop; on exhaustion
the default message is returned (unreached for inputs within the bound). -/
def unwrapLoop (origMsg : Js) : Nat → Js → Js
  | 0, _ => defaultErrorMessage
  | fuel + 1, parsed =>
    if jsTruthy parsed && isObjOrArr parsed then
      match jsGet2 parsed kError kMessage with
      | some em =>
        if jsTruthy em then
          match em with
          | Js.str s =>
            match jsonParse s with
            | some inner =>
              if optTruthy (jsGet2 inner kError kMessage) then unwrapLoop origMsg fuel inner
              else em
            | none => em
          | _ =>
            if optTruthy (jsGet2 em kError kMessage) then unwrapLoop origMsg fuel em
            else em
        else breakChain origMsg parsed
      | none => breakChain origMsg parsed
    else defaultErrorMessage

mutual

def jsSize : Js → Nat
  | Js.null => 1
  | Js.bool _ => 1
  | Js.num _ ip fp _ => 1 + ip.length + fp.length
  | Js.str s => 1 + s.length
  | Js.arr xs => 1 + jsSizeList xs
  | Js.obj fs => 1 + jsSizeFields fs

def jsSizeList : List Js → Nat
  | [] => 0
  | x :: xs => jsSize x + jsSizeList xs

def jsSizeFields : List (List Char × Js) → Nat
  | [] => 0
  | f :: fs => f.1.length + jsSize f.2 + jsSizeFields fs

end

/-- The loop plus the post-check of route.ts line 173. -/
def unwrapTry (origMsg : Js) (fuel : Nat) (parsed : Js) : Js :=
  let m := unwrapLoop origMsg fuel parsed
  if isDefaultMsg m && jsTruthy origMsg then origMsg else m

/-- `extract the error message` (route.ts lines 137-179): the value placed
in the `message` field of the diagnostic frame. -/
def extractErrorMessage (error : Js) : Js :=
  match jsGet error kMessage with
  | some msg =>
    if jsTruthy msg then
      match msg with
      | Js.str s =>
        match jsonParse s with
        | some parsed => unwrapTry msg (s.length + 1) parsed
        | none => jsOr msg defaultErrorMessage
      | _ => unwrapTry msg (jsSize msg + 1) msg
    else defaultErrorMessage
  | none => defaultErrorMessage

/-! ### Builders for nested error payloads -/

/-- JSON string-literal encoding (escape backslash and quote), as used to
embed one error envelope inside another. -/
def encodeJsonString (s : List Char) : List Char :=
  (s.map (fun c => if c = '"' ∨ c = '\\' then ['\\', c] else [c])).flatten

/-- The error envelope shape observed from the upstream service:
the JSON text of an object `error.message` holding the given string. -/
def envelope (m : List Char) : List Char :=
  ['\x7b'] ++ ("\"error\":").data ++ ['\x7b'] ++ ("\"message\":\"").data ++
    encodeJsonString m ++ ['"', '\x7d', '\x7d']

/-- An error value carrying the given `message` string. -/
def errWith (s : List Char) : Js := Js.obj [(kMessage, Js.str s)]

/-- C7: the error unwrapper maps the four scenario messages to the stated
diagnostics: a raw message to itself, a single envelope to its inner
message, the doubly-nested envelope to the innermost message, and an
unparseable message to itself. -/
theorem c7_unwrap_cases :
    extractErrorMessage (errWith ("oops").data) = Js.str ("oops").data ∧
    extractErrorMessage (errWith (envelope ("bad input").data)) =
      Js.str ("bad input").data ∧
    extractErrorMessage (errWith (envelope (envelope ("deep").data))) =
      Js.str ("deep").data ∧
    extractErrorMessage (errWith ("not json").data) = Js.str ("not json").data :=
  ⟨rfl, rfl, rfl, rfl⟩

/-- Counterexample to C8 as stated: on a three-envelope message the code
emits the innermost message `deep`, not the envelope string found at the
second level of unwrapping — the loop keeps recursing while each extracted
`error.message` parses to an envelope, it does not stop after one extra
level. -/
theorem c8_counterexample :
    extractErrorMessage (errWith (envelope (envelope (envelope ("deep").data)))) =
      Js.str ("deep").data ∧
    ("deep").data ≠ envelope ("deep").data :=
  ⟨rfl, by decide⟩

/-- C8 (amended): the unwrap loop is unbounded, not two-level-then-stop: it
keeps unwrapping while the extracted `error.message` value parses to an
object that itself has a truthy `error.message`, and emits the innermost
such message; in particular both the three-envelope and the four-envelope
nestings of `deep` emit `deep`. -/
theorem c8_unwrap_unbounded_amended :
    extractErrorMessage (errWith (envelope (envelope (envelope ("deep").data)))) =
      Js.str ("deep").data ∧
    extractErrorMessage
        (errWith (envelope (envelope (envelope (envelope ("deep").data))))) =
      Js.str ("deep").data :=
  ⟨rfl, rfl⟩

/-! ### Event transformer (route.ts lines 55-89) -/

/-- Object construction where fields copied from a source object may be
`undefined`; `JSON.stringify` omits such fields from the emitted frame, so
the frame object keeps only the present ones. -/
def objOpt (fields : List (List Char × Option Js)) : Js :=
  Js.obj (fields.filterMap (fun f =>
    match f.2 with
    | some v => some (f.1, v)
    | none => none))

/-- The chunk content fallback `data.delta?.content || data.content || ''`
(route.ts line 69): JavaScript `||` takes the first truthy operand. -/
def chunkContentVal (data : Js) : Js :=
  match jsGet2 data kDelta kContent with
  | some v =>
    if jsTruthy v then v
    else
      match jsGet data kContent with
      | some w => if jsTruthy w then w else Js.str []
      | none => Js.str []
  | none =>
    match jsGet data kContent with
    | some w => if jsTruthy w then w else Js.str []
    | none => Js.str []

/-- The `switch (data.type)` transform table (route.ts lines 57-89);
the second component is the `streamEnded` assignment (true exactly for
`message_end`). -/
def transformEvent (data : Js) : Js × Bool :=
  match jsGet data kType with
  | some (Js.str t) =>
    if t = ("message_start").data then
      (objOpt [(kType, some (Js.str ("message_start").data)), (kId, jsGet data kId),
        (kModel, jsGet data kModel), (kRole, jsGet data kRole)], false)
    else if t = ("content_chunk").data then
      (Js.obj [(kType, Js.str ("content_chunk").data),
        (kDelta, Js.obj [(kContent, chunkContentVal data)])], false)
    else if t = ("citation").data then
      (objOpt [(kType, some (Js.str ("citation").data)),
        (kCitationField, jsGet data kCitationField)], false)
    else if t = ("message_end").data then
      (objOpt [(kType, some (Js.str ("message_end").data)), (kFinish, jsGet data kFinish),
        (kUsage, jsGet data kUsage)], true)
    else (data, false)
  | _ => (data, false)

/-- Claim-side content selector, phrased as the amended claim: the
`delta.content` field when present and truthy, else the top-level
`content` field when present and truthy, else the empty string. -/
def chunkSelector (data : Js) : Js :=
  if optTruthy (jsGet2 data kDelta kContent) then (jsGet2 data kDelta kContent).getD (Js.str [])
  else if optTruthy (jsGet data kContent) then (jsGet data kContent).getD (Js.str [])
  else Js.str []

theorem chunkContentVal_eq_selector (data : Js) : chunkContentVal data = chunkSelector data := by
  unfold chunkContentVal chunkSelector
  cases hd : jsGet2 data kDelta kContent with
  | some v =>
    by_cases hv : jsTruthy v = true
    · simp [optTruthy, hv]
    · simp only [Bool.not_eq_true] at hv
      cases hc : jsGet data kContent with
      | some w =>
        by_cases hw : jsTruthy w = true
        · simp [optTruthy, hv, hw]
        · simp only [Bool.not_eq_true] at hw
          simp [optTruthy, hv, hw]
      | none => simp [optTruthy, hv]
  | none =>
    cases hc : jsGet data kContent with
    | some w =>
      by_cases hw : jsTruthy w = true
      · simp [optTruthy, hw]
      · simp only [Bool.not_eq_true] at hw
        simp [optTruthy, hw]
    | none => simp [optTruthy]

def c9data : Js :=
  Js.obj [(kType, Js.str ("content_chunk").data),
    (kDelta, Js.obj [(kContent, Js.str [])]),
    (kContent, Js.str ("X").data)]

/-- Counterexample to C9 as stated: an event whose `delta.content` field is
present (the empty string) and whose top-level `content` is `X` is
transformed with content `X`, not the present-but-falsy `delta.content`:
the fallback is by truthiness, not by presence. -/
theorem c9_counterexample :
    transformEvent c9data =
      (Js.obj [(kType, Js.str ("content_chunk").data),
        (kDelta, Js.obj [(kContent, Js.str ("X").data)])], false) ∧
    jsGet2 c9data kDelta kContent = some (Js.str []) ∧
    ("X").data ≠ ([] : List Char) :=
  ⟨rfl, rfl, by decide⟩

/-- C9 (amended): for every `content_chunk` event, the transformed frame is
`content_chunk` with `delta.content` equal to the first truthy value among
the input's `delta.content` and top-level `content`, else the empty
string. -/
theorem c9_chunk_content_amended (data : Js)
    (ht : jsGet data kType = some (Js.str ("content_chunk").data)) :
    transformEvent data =
      (Js.obj [(kType, Js.str ("content_chunk").data),
        (kDelta, Js.obj [(kContent, chunkSelector data)])], false) := by
  simp only [transformEvent, ht]
  simp [chunkContentVal_eq_selector]

def c9wData : Js :=
  Js.obj [(kType, Js.str ("content_chunk").data),
    (kDelta, Js.obj [(kContent, Js.str ("hi").data)])]

/-- Witness for C9 at a concrete input: a chunk with `delta.content = hi`
transforms to a frame carrying `hi`. -/
theorem c9_chunk_content_witness :
    transformEvent c9wData =
      (Js.obj [(kType, Js.str ("content_chunk").data),
        (kDelta, Js.obj [(kContent, chunkSelector c9wData)])], false) :=
  c9_chunk_content_amended c9wData rfl

/-! ### The stream bridge (route.ts lines 29-204)

The bridge is embedded as a functional interpreter.  The outbound
`ReadableStream` controller is the sink; its observable effects are the
list of successfully enqueued frames (kept as the transformed objects; the
`data: <json>` byte framing is invertible and not load-bearing), the
number of successful closes, and the closed flag.  Consumer-side behavior
is an oracle giving the outcome of each sink operation: success, a
closed-controller error (`ERR_INVALID_STATE`, e.g. the consumer hung up),
or some other failure. -/

inductive SinkOutcome where
  | ok
  | invalidState
  | fail (e : Js)

/-- One upstream iteration step: a yielded value (object or string chunk)
or the iteration raising.  A rejection of the initial `chatStream` call
(route.ts line 33) is observationally a raise before the first item, since
the same outer catch handles both. -/
inductive UpItem where
  | val (v : Js)
  | raise (e : Js)

structure LoopSt where
  writes : List Js
  opIdx : Nat
  closed : Bool
  closeCount : Nat

def initSt : LoopSt := ⟨[], 0, false, 0⟩

/-- Outcome of the next sink operation: deterministically
`ERR_INVALID_STATE` once the bridge itself closed the controller, else
whatever the consumer-side oracle says. -/
def sinkOut (oracle : Nat → SinkOutcome) (st : LoopSt) : SinkOutcome :=
  if st.closed then SinkOutcome.invalidState else oracle st.opIdx

def bumpOp (st : LoopSt) : LoopSt := { st with opIdx := st.opIdx + 1 }

def writeFrame (v : Js) (st : LoopSt) : LoopSt :=
  { st with writes := st.writes ++ [v], opIdx := st.opIdx + 1 }

def closeSink (st : LoopSt) : LoopSt :=
  { st with closed := true, closeCount := st.closeCount + 1, opIdx := st.opIdx + 1 }

/-- The `^data:\s*` label strip of route.ts line 48. -/
def stripDataLabel (s : List Char) : List Char :=
  if s.take 5 = ("data:").data then (s.drop 5).dropWhile jsWS else s

/-- `String.prototype.trim`. -/
def trimWS (s : List Char) : List Char :=
  ((s.dropWhile jsWS).reverse.dropWhile jsWS).reverse

/-- The event denoted by an upstream item after the guards of route.ts
lines 41-53: `none` when the item is skipped (falsy response, string that
fails to parse — the parse error is caught and logged at line 117-119 —
or falsy parsed data). -/
def itemEvent : UpItem → Option Js
  | UpItem.raise _ => none
  | UpItem.val v =>
    if jsTruthy v then
      match v with
      | Js.str s =>
        match jsonParse (trimWS (stripDataLabel s)) with
        | some d => if jsTruthy d then some d else none
        | none => none
      | d => some d
    else none

/-- The `for await` loop of route.ts lines 40-121, one item at a time.
Per item (inside the per-chunk `try` of lines 42-119): skip or transform,
enqueue under the guard of lines 92-103 (`ERR_INVALID_STATE` after the
terminal flag breaks out; any other enqueue failure is rethrown into the
per-chunk catch, which logs and continues), then for the terminal frame
close under the guard of lines 106-116 and return.  A `raise` aborts the
iteration with the exception and the current state.  Returns the final
state and the `streamEnded` flag on normal exit. -/
def processItems (oracle : Nat → SinkOutcome) :
    List UpItem → LoopSt → Bool → Except (Js × LoopSt) (LoopSt × Bool)
  | [], st, ended => Except.ok (st, ended)
  | UpItem.raise e :: _, st, _ => Except.error (e, st)
  | UpItem.val v :: rest, st, ended =>
    match itemEvent (UpItem.val v) with
    | none => processItems oracle rest st ended
    | some data =>
      let td := (transformEvent data).1
      let ended2 := ended || (transformEvent data).2
      match sinkOut oracle st with
      | SinkOutcome.ok =>
        if ended2 then
          match sinkOut oracle (writeFrame td st) with
          | SinkOutcome.ok => Except.ok (closeSink (writeFrame td st), ended2)
          | SinkOutcome.invalidState => Except.ok (bumpOp (writeFrame td st), ended2)
          | SinkOutcome.fail _ => processItems oracle rest (bumpOp (writeFrame td st)) ended2
        else processItems oracle rest (writeFrame td st) ended2
      | SinkOutcome.invalidState =>
        if ended2 then Except.ok (bumpOp st, ended2)
        else processItems oracle rest (bumpOp st) ended2
      | SinkOutcome.fail _ => processItems oracle rest (bumpOp st) ended2

/-- The body of `start` under its outer `try` (route.ts lines 31-133):
run the loop, then, if the stream did not end, close the controller with
the guard of lines 125-132 (`ERR_INVALID_STATE` absorbed, other failures
rethrown to the outer catch). -/
def startBody (oracle : Nat → SinkOutcome) (items : List UpItem) :
    Except (Js × LoopSt) LoopSt :=
  match processItems oracle items initSt false with
  | Except.error es => Except.error es
  | Except.ok (st, ended) =>
    if ended then Except.ok st
    else
      match sinkOut oracle st with
      | SinkOutcome.ok => Except.ok (closeSink st)
      | SinkOutcome.invalidState => Except.ok (bumpOp st)
      | SinkOutcome.fail e => Except.error (e, bumpOp st)

/-- The diagnostic frame emitted by the outer catch. -/
def errorFrame (e : Js) : Js :=
  Js.obj [(kType, Js.str ("error").data), (kMessage, extractErrorMessage e)]

/-- The outer catch handler (route.ts lines 134-201): unwrap the message,
attempt to enqueue one `error` frame (any failure only logged, lines
186-191), then attempt to close (any failure only logged, lines 193-201).
Total: the handler cannot itself raise. -/
def errorPath (oracle : Nat → SinkOutcome) (e : Js) (st : LoopSt) : LoopSt :=
  let st1 :=
    match sinkOut oracle st with
    | SinkOutcome.ok => writeFrame (errorFrame e) st
    | _ => bumpOp st
  match sinkOut oracle st1 with
  | SinkOutcome.ok => closeSink st1
  | _ => bumpOp st1

/-- `start` with its outer try/catch: an `Except.error` result would mean
an exception escaped the bridge to the stream machinery. -/
def runStartE (oracle : Nat → SinkOutcome) (items : List UpItem) : Except Js LoopSt :=
  match startBody oracle items with
  | Except.ok st => Except.ok st
  | Except.error (e, st) => Except.ok (errorPath oracle e st)

/-- The final sink state of a bridge run. -/
def runStart (oracle : Nat → SinkOutcome) (items : List UpItem) : LoopSt :=
  match runStartE oracle items with
  | Except.ok st => st
  | Except.error _ => initSt

/-- The well-behaved consumer: every sink operation succeeds. -/
def benign : Nat → SinkOutcome := fun _ => SinkOutcome.ok

theorem runStartE_isOk (oracle : Nat → SinkOutcome) (items : List UpItem) :
    (runStartE oracle items).isOk = true := by
  unfold runStartE
  cases h : startBody oracle items with
  | ok st => rfl
  | error es => rfl

/-! ### Characterizing runs under the well-behaved consumer -/

def isMsgEndItem (it : UpItem) : Bool :=
  match itemEvent it with
  | some d => (transformEvent d).2
  | none => false

def isRaiseItem : UpItem → Bool
  | UpItem.raise _ => true
  | _ => false

/-- Frames successfully forwarded before the run settles (terminal frame
included, diagnostic error frame excluded). -/
def benignFrames : List UpItem → List Js
  | [] => []
  | UpItem.raise _ :: _ => []
  | it :: rest =>
    match itemEvent it with
    | none => benignFrames rest
    | some d => (transformEvent d).1 :: (if (transformEvent d).2 then [] else benignFrames rest)

inductive BenignEnd where
  | exhausted
  | ended
  | raised (e : Js)

/-- How the loop settles under the well-behaved consumer. -/
def benignOutcome : List UpItem → BenignEnd
  | [] => BenignEnd.exhausted
  | UpItem.raise e :: _ => BenignEnd.raised e
  | it :: rest =>
    match itemEvent it with
    | none => benignOutcome rest
    | some d => if (transformEvent d).2 then BenignEnd.ended else benignOutcome rest

def appendWrites (st : LoopSt) (fs : List Js) : LoopSt :=
  { st with writes := st.writes ++ fs, opIdx := st.opIdx + fs.length }

theorem appendWrites_nil (st : LoopSt) : appendWrites st [] = st := by
  simp [appendWrites]

theorem appendWrites_cons (st : LoopSt) (f : Js) (fs : List Js) :
    appendWrites (writeFrame f st) fs = appendWrites st (f :: fs) := by
  simp only [appendWrites, writeFrame, List.append_assoc, List.singleton_append,
    List.length_cons]
  congr 1
  omega

theorem appendWrites_closed (st : LoopSt) (fs : List Js) :
    (appendWrites st fs).closed = st.closed := rfl

theorem processItems_benign : ∀ (items : List UpItem) (st : LoopSt), st.closed = false →
    processItems benign items st false =
      match benignOutcome items with
      | BenignEnd.exhausted => Except.ok (appendWrites st (benignFrames items), false)
      | BenignEnd.ended => Except.ok (closeSink (appendWrites st (benignFrames items)), true)
      | BenignEnd.raised e => Except.error (e, appendWrites st (benignFrames items)) := by
  intro items
  induction items with
  | nil =>
    intro st _
    simp [processItems, benignOutcome, benignFrames, appendWrites_nil]
  | cons it rest ih =>
    intro st hcl
    cases it with
    | raise e =>
      simp [processItems, benignOutcome, benignFrames, appendWrites_nil]
    | val v =>
      cases hie : itemEvent (UpItem.val v) with
      | none =>
        have := ih st hcl
        simp only [processItems, hie, benignOutcome, benignFrames]
        exact this
      | some d =>
        have hout : sinkOut benign st = SinkOutcome.ok := by
          simp [sinkOut, hcl, benign]
        cases hflag : (transformEvent d).2 with
        | true =>
          have hcl2 : (writeFrame (transformEvent d).1 st).closed = false := hcl
          have hout2 : sinkOut benign (writeFrame (transformEvent d).1 st) =
              SinkOutcome.ok := by
            simp [sinkOut, hcl2, benign]
          simp only [processItems, hie, hflag, Bool.false_or, hout, hout2, if_true,
            benignOutcome, benignFrames, if_pos rfl]
          rw [show appendWrites st [(transformEvent d).1] =
            writeFrame (transformEvent d).1 st from by
              simp [appendWrites, writeFrame]]
        | false =>
          have hcl2 : (writeFrame (transformEvent d).1 st).closed = false := hcl
          have hrec := ih (writeFrame (transformEvent d).1 st) hcl2
          simp only [processItems, hie, hflag, Bool.false_or, hout, if_false,
            benignOutcome, benignFrames]
          rw [hrec]
          cases hbo : benignOutcome rest with
          | exhausted => simp [appendWrites_cons]
          | ended => simp [appendWrites_cons]
          | raised e => simp [appendWrites_cons]

/-- Final state of a run under the well-behaved consumer: frames forwarded
per `benignFrames`, one diagnostic error frame appended when the iteration
raised, and the sink closed exactly once in all cases. -/
theorem runStart_benign (items : List UpItem) :
    runStart benign items =
      match benignOutcome items with
      | BenignEnd.exhausted => closeSink (appendWrites initSt (benignFrames items))
      | BenignEnd.ended => closeSink (appendWrites initSt (benignFrames items))
      | BenignEnd.raised e =>
          closeSink (writeFrame (errorFrame e) (appendWrites initSt (benignFrames items))) := by
  have hmain := processItems_benign items initSt rfl
  cases hbo : benignOutcome items with
  | exhausted =>
    rw [hbo] at hmain
    have hcl : (appendWrites initSt (benignFrames items)).closed = false := rfl
    simp only [runStart, runStartE, startBody, hmain, if_false]
    simp [sinkOut, hcl, benign]
  | ended =>
    rw [hbo] at hmain
    simp [runStart, runStartE, startBody, hmain]
  | raised e =>
    rw [hbo] at hmain
    have hcl : (appendWrites initSt (benignFrames items)).closed = false := rfl
    have hcl2 : (writeFrame (errorFrame e) (appendWrites initSt (benignFrames items))).closed
        = false := hcl
    simp only [runStart, runStartE, startBody, hmain, errorPath]
    simp [sinkOut, hcl, hcl2, benign]

theorem runStart_benign_closeCount (items : List UpItem) :
    (runStart benign items).closeCount = 1 := by
  rw [runStart_benign]
  cases hbo : benignOutcome items <;>
    simp [closeSink, appendWrites, writeFrame, initSt]

/-! ### Frame classification -/

/-- A frame a consumer would read as terminal: typed `message_end` or
`error`. -/
def isTerminalFrame (f : Js) : Bool :=
  match jsGet f kType with
  | some (Js.str t) =>
    decide (t = ("message_end").data) || decide (t = ("error").data)
  | _ => false

def isErrorTyped (f : Js) : Bool :=
  match jsGet f kType with
  | some (Js.str t) => decide (t = ("error").data)
  | _ => false

/-- An upstream item whose passthrough frame spoofs the terminal `error`
type. -/
def spoofsError (it : UpItem) : Bool :=
  match itemEvent it with
  | some d => isErrorTyped (transformEvent d).1
  | none => false

theorem jsGet_obj_of_unique (k : List Char) (v : Js) (post : List (List Char × Js))
    (hpost : ∀ f ∈ post, f.1 ≠ k) :
    jsGet (Js.obj ((k, v) :: post)) k = some v := by
  simp only [jsGet, List.foldl_cons, if_pos rfl]
  induction post with
  | nil => rfl
  | cons f fs ih =>
    have hf : f.1 ≠ k := hpost f (by simp)
    simp only [List.foldl_cons, if_neg hf]
    exact ih (fun g hg => hpost g (by simp [hg]))

theorem jsGet_objOpt_type (v : Js) (rest : List (List Char × Option Js))
    (hrest : ∀ f ∈ rest, f.1 ≠ kType) :
    jsGet (objOpt ((kType, some v) :: rest)) kType = some v := by
  simp only [objOpt, List.filterMap_cons]
  apply jsGet_obj_of_unique
  intro f hf
  rw [List.mem_filterMap] at hf
  obtain ⟨a, ha, hfa⟩ := hf
  cases h2 : a.2 with
  | none => rw [h2] at hfa; cases hfa
  | some w =>
    rw [h2] at hfa
    injection hfa with hfa
    subst hfa
    exact hrest a ha

theorem transform_type_msg_end (d : Js) (h : (transformEvent d).2 = true) :
    jsGet (transformEvent d).1 kType = some (Js.str ("message_end").data) := by
  cases ht : jsGet d kType with
  | none => simp [transformEvent, ht] at h
  | some tv =>
    cases tv with
    | str t =>
      by_cases h1 : t = ("message_start").data
      · simp [transformEvent, ht, h1] at h
      · by_cases h2 : t = ("content_chunk").data
        · simp [transformEvent, ht, h1, h2] at h
        · by_cases h3 : t = ("citation").data
          · simp [transformEvent, ht, h1, h2, h3] at h
          · by_cases h4 : t = ("message_end").data
            · simp only [transformEvent, ht, h1, h2, h3, h4, if_false, if_true, if_pos rfl]
              apply jsGet_objOpt_type
              intro f hf
              fin_cases hf <;> simp [kFinish, kUsage, kType]
            · simp [transformEvent, ht, h1, h2, h3, h4] at h
    | null => simp [transformEvent, ht] at h
    | bool b => simp [transformEvent, ht] at h
    | num a b c e => simp [transformEvent, ht] at h
    | arr xs => simp [transformEvent, ht] at h
    | obj fs => simp [transformEvent, ht] at h

theorem frame_not_terminal (d : Js) (hme : (transformEvent d).2 = false)
    (hsp : isErrorTyped (transformEvent d).1 = false) :
    isTerminalFrame (transformEvent d).1 = false := by
  cases ht : jsGet d kType with
  | some tv =>
    cases tv with
    | str t =>
      by_cases h1 : t = ("message_start").data
      · have hty : jsGet (transformEvent d).1 kType =
            some (Js.str ("message_start").data) := by
          simp only [transformEvent, ht, h1, if_pos rfl]
          apply jsGet_objOpt_type
          intro f hf
          fin_cases hf <;> simp [kId, kModel, kRole, kType]
        simp [isTerminalFrame, hty]
      · by_cases h2 : t = ("content_chunk").data
        · have hty : jsGet (transformEvent d).1 kType =
              some (Js.str ("content_chunk").data) := by
            simp only [transformEvent, ht, h1, h2, if_false, if_pos rfl]
            apply jsGet_obj_of_unique
            intro f hf
            fin_cases hf <;> simp [kDelta, kType]
          simp [isTerminalFrame, hty]
        · by_cases h3 : t = ("citation").data
          · have hty : jsGet (transformEvent d).1 kType =
                some (Js.str ("citation").data) := by
              simp only [transformEvent, ht, h1, h2, h3, if_false, if_pos rfl]
              apply jsGet_objOpt_type
              intro f hf
              fin_cases hf <;> simp [kCitationField, kType]
            simp [isTerminalFrame, hty]
          · by_cases h4 : t = ("message_end").data
            · simp [transformEvent, ht, h1, h2, h3, h4] at hme
            · have hfr : (transformEvent d).1 = d := by
                simp [transformEvent, ht, h1, h2, h3, h4]
              rw [hfr] at hsp ⊢
              simp only [isTerminalFrame, isErrorTyped, ht] at hsp ⊢
              simp [h4, hsp]
    | null => simp [isTerminalFrame, transformEvent, ht]
    | bool b => simp [isTerminalFrame, transformEvent, ht]
    | num a b c e => simp [isTerminalFrame, transformEvent, ht]
    | arr xs => simp [isTerminalFrame, transformEvent, ht]
    | obj fs => simp [isTerminalFrame, transformEvent, ht]
  | none =>
    have hfr : (transformEvent d).1 = d := by
      simp [transformEvent, ht]
    rw [hfr]
    simp [isTerminalFrame, ht]

theorem errorFrame_terminal (e : Js) : isTerminalFrame (errorFrame e) = true := by
  have hty : jsGet (errorFrame e) kType = some (Js.str ("error").data) := by
    apply jsGet_obj_of_unique
    intro f hf
    fin_cases hf <;> simp [kMessage, kType]
  simp [isTerminalFrame, hty]

theorem benignOutcome_exhausted_countP : ∀ (items : List UpItem),
    benignOutcome items = BenignEnd.exhausted → items.countP isMsgEndItem = 0 := by
  intro items
  induction items with
  | nil => intro _; rfl
  | cons it rest ih =>
    intro h
    cases it with
    | raise e => simp [benignOutcome] at h
    | val v =>
      cases hie : itemEvent (UpItem.val v) with
      | none =>
        simp only [benignOutcome, hie] at h
        simp only [List.countP_cons, isMsgEndItem, hie, ih h]
        rfl
      | some d =>
        cases hflag : (transformEvent d).2 with
        | true => simp [benignOutcome, hie, hflag] at h
        | false =>
          simp only [benignOutcome, hie, hflag, if_false] at h
          simp only [List.countP_cons, isMsgEndItem, hie, hflag, ih h]
          rfl

theorem benignFrames_shape : ∀ (items : List UpItem),
    (∀ it ∈ items, spoofsError it = false) →
    (match benignOutcome items with
     | BenignEnd.ended => ∃ fs t, benignFrames items = fs ++ [t] ∧
         isTerminalFrame t = true ∧ fs.countP isTerminalFrame = 0
     | BenignEnd.raised _ => (benignFrames items).countP isTerminalFrame = 0
     | BenignEnd.exhausted => True) := by
  intro items
  induction items with
  | nil => intro _; simp [benignOutcome]
  | cons it rest ih =>
    intro hsp
    have hsprest : ∀ it2 ∈ rest, spoofsError it2 = false :=
      fun it2 h2 => hsp it2 (by simp [h2])
    cases it with
    | raise e => simp [benignOutcome, benignFrames, List.countP_nil]
    | val v =>
      cases hie : itemEvent (UpItem.val v) with
      | none =>
        have := ih hsprest
        simp only [benignOutcome, benignFrames, hie]
        exact this
      | some d =>
        have hspv : isErrorTyped (transformEvent d).1 = false := by
          have := hsp (UpItem.val v) (by simp)
          simpa [spoofsError, hie] using this
        cases hflag : (transformEvent d).2 with
        | true =>
          have hterm : isTerminalFrame (transformEvent d).1 = true := by
            have hty := transform_type_msg_end d hflag
            simp [isTerminalFrame, hty]
          simp only [benignOutcome, benignFrames, hie, hflag, if_true]
          exact ⟨[], (transformEvent d).1, by simp, hterm, rfl⟩
        | false =>
          have hnt : isTerminalFrame (transformEvent d).1 = false :=
            frame_not_terminal d hflag hspv
          have hrest := ih hsprest
          simp only [benignOutcome, benignFrames, hie, hflag, if_false]
          cases hbo : benignOutcome rest with
          | exhausted => trivial
          | ended =>
            rw [hbo] at hrest
            obtain ⟨fs, t, hfr, ht, hc⟩ := hrest
            exact ⟨(transformEvent d).1 :: fs, t, by simp [hfr],
              ht, by simp [List.countP_cons, hnt, hc]⟩
          | raised e =>
            rw [hbo] at hrest
            simp [List.countP_cons, hnt, hrest]

/-- C1 (amended): for every upstream sequence containing exactly one
`message_end` event and no passthrough event whose frame spoofs the
terminal type `error` (the bridge forwards unknown event types verbatim,
so upstream can inject terminal-looking frames), the run under a
well-behaved consumer writes exactly one terminal frame (`message_end` or
`error`), that frame is the last write (nothing is forwarded after it),
and the sink is closed exactly once; and every upstream sequence that is
exhausted without raising and without producing `message_end` still has
its sink closed exactly once. -/
theorem c1_bridge_terminal_amended :
    (∀ items : List UpItem,
      items.countP isMsgEndItem = 1 →
      (∀ it ∈ items, spoofsError it = false) →
      (∃ fs t, (runStart benign items).writes = fs ++ [t] ∧ isTerminalFrame t = true ∧
        fs.countP isTerminalFrame = 0) ∧ (runStart benign items).closeCount = 1) ∧
    (∀ items : List UpItem,
      (∀ it ∈ items, isRaiseItem it = false) →
      items.countP isMsgEndItem = 0 →
      (runStart benign items).closeCount = 1) := by
  constructor
  · intro items hcount hsp
    refine ⟨?_, runStart_benign_closeCount items⟩
    have hshape := benignFrames_shape items hsp
    rw [runStart_benign]
    cases hbo : benignOutcome items with
    | exhausted =>
      exfalso
      rw [benignOutcome_exhausted_countP items hbo] at hcount
      cases hcount
    | ended =>
      rw [hbo] at hshape
      obtain ⟨fs, t, hfr, ht, hc⟩ := hshape
      refine ⟨fs, t, ?_, ht, hc⟩
      simp [closeSink, appendWrites, initSt, hfr]
    | raised e =>
      rw [hbo] at hshape
      refine ⟨benignFrames items, errorFrame e, ?_, errorFrame_terminal e, hshape⟩
      simp [closeSink, appendWrites, writeFrame, initSt]
  · intro items _ _
    exact runStart_benign_closeCount items

def meEvt : Js := Js.obj [(kType, Js.str ("message_end").data)]

/-- Witness for C1 at a concrete input: one content chunk followed by one
`message_end`. -/
theorem c1_bridge_terminal_witness :
    (∃ fs t, (runStart benign [UpItem.val c9wData, UpItem.val meEvt]).writes = fs ++ [t] ∧
      isTerminalFrame t = true ∧ fs.countP isTerminalFrame = 0) ∧
    (runStart benign [UpItem.val c9wData, UpItem.val meEvt]).closeCount = 1 :=
  c1_bridge_terminal_amended.1 [UpItem.val c9wData, UpItem.val meEvt]
    (by decide) (by decide)

def errSpoofEvt : Js := Js.obj [(kType, Js.str ("error").data)]

/-- Counterexample to C1 as stated: an upstream sequence with exactly one
`message_end` but containing an unknown-typed event `type: error` — passed
through verbatim — produces two terminal-typed frames on the outbound
stream, not exactly one. -/
theorem c1_counterexample :
    ([UpItem.val errSpoofEvt, UpItem.val meEvt].countP isMsgEndItem = 1) ∧
    ((runStart benign [UpItem.val errSpoofEvt, UpItem.val meEvt]).writes.countP
        isTerminalFrame = 2) := by
  constructor
  · decide
  · decide

theorem benign_prefix_raise : ∀ (pre : List UpItem) (e : Js) (rest : List UpItem),
    (∀ it ∈ pre, isRaiseItem it = false) →
    pre.countP isMsgEndItem = 0 →
    benignOutcome (pre ++ UpItem.raise e :: rest) = BenignEnd.raised e ∧
    benignFrames (pre ++ UpItem.raise e :: rest) = benignFrames pre := by
  intro pre
  induction pre with
  | nil => intro e rest _ _; simp [benignOutcome, benignFrames]
  | cons it pre ih =>
    intro e rest hnr hme
    cases it with
    | raise e2 =>
      have := hnr (UpItem.raise e2) (by simp)
      simp [isRaiseItem] at this
    | val v =>
      have hnr2 : ∀ it2 ∈ pre, isRaiseItem it2 = false :=
        fun it2 h2 => hnr it2 (by simp [h2])
      cases hie : itemEvent (UpItem.val v) with
      | none =>
        have hme2 : pre.countP isMsgEndItem = 0 := by
          simp only [List.countP_cons, isMsgEndItem, hie] at hme
          omega
        have := ih e rest hnr2 hme2
        simp only [List.cons_append, benignOutcome, benignFrames, hie]
        exact this
      | some d =>
        have hflag : (transformEvent d).2 = false := by
          by_contra hcon
          simp only [Bool.not_eq_false] at hcon
          simp [List.countP_cons, isMsgEndItem, hie, hcon] at hme
        have hme2 : pre.countP isMsgEndItem = 0 := by
          simp only [List.countP_cons, isMsgEndItem, hie, hflag] at hme
          omega
        have := ih e rest hnr2 hme2
        simp only [List.cons_append, benignOutcome, benignFrames, hie, hflag,
          Bool.false_eq_true, if_false]
        exact ⟨this.1, congrArg ((transformEvent d).1 :: ·) this.2⟩

/-- C5 (amended): for every upstream sequence that raises mid-iteration
after a raise-free, `message_end`-free prefix was forwarded, the bridge
writes exactly one terminating frame `type: error` carrying the unwrapped
diagnostic value after the forwarded frames, and closes the sink exactly
once; and for every consumer behavior, no exception escapes the bridge.
(The diagnostic `message` is the unwrapped value, which is a string for
ordinary error payloads but follows the raised value's shape in general.) -/
theorem c5_error_path_amended :
    (∀ (pre : List UpItem) (e : Js) (rest : List UpItem),
      (∀ it ∈ pre, isRaiseItem it = false) →
      pre.countP isMsgEndItem = 0 →
      (runStart benign (pre ++ UpItem.raise e :: rest)).writes =
        benignFrames pre ++ [errorFrame e] ∧
      (runStart benign (pre ++ UpItem.raise e :: rest)).closeCount = 1) ∧
    (∀ (oracle : Nat → SinkOutcome) (items : List UpItem),
      (runStartE oracle items).isOk = true) := by
  constructor
  · intro pre e rest hnr hme
    obtain ⟨hbo, hbf⟩ := benign_prefix_raise pre e rest hnr hme
    constructor
    · rw [runStart_benign, hbo]
      simp [closeSink, appendWrites, writeFrame, initSt, hbf]
    · exact runStart_benign_closeCount _
  · exact runStartE_isOk

/-- Witness for C5 at a concrete input: one content chunk, then the
iteration raises with a plain `oops` error. -/
theorem c5_error_path_witness :
    (runStart benign ([UpItem.val c9wData] ++
        UpItem.raise (errWith ("oops").data) :: [])).writes =
      benignFrames [UpItem.val c9wData] ++ [errorFrame (errWith ("oops").data)] ∧
    (runStart benign ([UpItem.val c9wData] ++
        UpItem.raise (errWith ("oops").data) :: [])).closeCount = 1 :=
  (c5_error_path_amended.1 [UpItem.val c9wData] (errWith ("oops").data) []
    (by decide) (by decide))

def c5msg : List Char :=
  ['\x7b'] ++ ("\"error\":").data ++ ['\x7b'] ++ ("\"message\":5").data ++ ['\x7d', '\x7d']

def c5err : Js := errWith c5msg

/-- Counterexample to C5 as stated: a raised error whose nested
`error.message` is the JSON number `5` produces a terminating frame whose
`message` field is that number, not a string. -/
theorem c5_counterexample :
    (runStart benign [UpItem.raise c5err]).writes =
      [Js.obj [(kType, Js.str ("error").data), (kMessage, Js.num false ['5'] [] 0)]] ∧
    isJsStr (Js.num false ['5'] [] 0) = false :=
  ⟨rfl, rfl⟩

/-- C6 (amended): (i) no exception ever escapes the bridge to its caller;
(ii) an `ERR_INVALID_STATE` enqueue failure after the terminal flag is set
is absorbed as a no-op and the run ends silently; (iii) an
`ERR_INVALID_STATE` close failure after the terminal frame was written is
absorbed and the run ends; (iv) but when the sink reports closed before
any terminal condition was reached, the re-raised failure is caught by the
per-chunk handler, which logs it and skips that item: the bridge continues
consuming the remaining items rather than escalating to the stream-failure
path. -/
theorem c6_close_discipline_amended :
    (∀ (oracle : Nat → SinkOutcome) (items : List UpItem),
      (runStartE oracle items).isOk = true) ∧
    (∀ (oracle : Nat → SinkOutcome) (st : LoopSt) (v : Js) (rest : List UpItem) (d : Js),
      itemEvent (UpItem.val v) = some d → (transformEvent d).2 = true →
      st.closed = false → oracle st.opIdx = SinkOutcome.invalidState →
      processItems oracle (UpItem.val v :: rest) st false = Except.ok (bumpOp st, true)) ∧
    (∀ (oracle : Nat → SinkOutcome) (st : LoopSt) (v : Js) (rest : List UpItem) (d : Js),
      itemEvent (UpItem.val v) = some d → (transformEvent d).2 = true →
      st.closed = false → oracle st.opIdx = SinkOutcome.ok →
      oracle (st.opIdx + 1) = SinkOutcome.invalidState →
      processItems oracle (UpItem.val v :: rest) st false =
        Except.ok (bumpOp (writeFrame (transformEvent d).1 st), true)) ∧
    (∀ (oracle : Nat → SinkOutcome) (st : LoopSt) (v : Js) (rest : List UpItem) (d : Js),
      itemEvent (UpItem.val v) = some d → (transformEvent d).2 = false →
      st.closed = false → oracle st.opIdx = SinkOutcome.invalidState →
      processItems oracle (UpItem.val v :: rest) st false =
        processItems oracle rest (bumpOp st) false) := by
  refine ⟨runStartE_isOk, ?_, ?_, ?_⟩
  · intro oracle st v rest d hie hflag hcl hor
    have hout : sinkOut oracle st = SinkOutcome.invalidState := by
      simp [sinkOut, hcl, hor]
    simp [processItems, hie, hflag, hout]
  · intro oracle st v rest d hie hflag hcl hor1 hor2
    have hout : sinkOut oracle st = SinkOutcome.ok := by
      simp [sinkOut, hcl, hor1]
    have hcl2 : (writeFrame (transformEvent d).1 st).closed = false := hcl
    have hout2 : sinkOut oracle (writeFrame (transformEvent d).1 st) =
        SinkOutcome.invalidState := by
      simp [sinkOut, hcl2, writeFrame, hor2]
    simp [processItems, hie, hflag, hout, hout2]
  · intro oracle st v rest d hie hflag hcl hor
    have hout : sinkOut oracle st = SinkOutcome.invalidState := by
      simp [sinkOut, hcl, hor]
    simp [processItems, hie, hflag, hout]

def chunkEvtA : Js :=
  Js.obj [(kType, Js.str ("content_chunk").data), (kContent, Js.str ("A").data)]

def chunkEvtB : Js :=
  Js.obj [(kType, Js.str ("content_chunk").data), (kContent, Js.str ("B").data)]

def c6oracle : Nat → SinkOutcome :=
  fun n => if n = 0 then SinkOutcome.invalidState else SinkOutcome.ok

/-- Witness for C6 at a concrete input: a pre-terminal closed-sink report
on the first chunk makes the bridge skip that item and continue with the
rest. -/
theorem c6_close_discipline_witness :
    processItems c6oracle [UpItem.val chunkEvtA, UpItem.val chunkEvtB] initSt false =
      processItems c6oracle [UpItem.val chunkEvtB] (bumpOp initSt) false :=
  c6_close_discipline_amended.2.2.2 c6oracle initSt chunkEvtA [UpItem.val chunkEvtB]
    chunkEvtA rfl rfl rfl rfl

/-- Counterexample to C6 as stated: with the sink reporting closed on the
very first (pre-terminal) enqueue, the bridge does not treat it as a
bridge failure: no `error` frame is emitted, the next chunk is still
forwarded, and the stream is closed normally. -/
theorem c6_counterexample :
    (runStart c6oracle [UpItem.val chunkEvtA, UpItem.val chunkEvtB]).writes =
      [Js.obj [(kType, Js.str ("content_chunk").data),
        (kDelta, Js.obj [(kContent, Js.str ("B").data)])]] ∧
    (runStart c6oracle [UpItem.val chunkEvtA, UpItem.val chunkEvtB]).writes.countP
        isTerminalFrame = 0 ∧
    (runStart c6oracle [UpItem.val chunkEvtA, UpItem.val chunkEvtB]).closeCount = 1 :=
  ⟨rfl, rfl, rfl⟩
